import Mathlib

/-!
Verification of the tree/table engine in `src/controls/tree_view.hpp`
(OpenGLGUI). The C++ code is shallowly embedded: `TreeNode<T>` becomes the
nested inductive `TNode` (a node record plus its child list; the C++ parent
pointer is the structural parent, and pointer identity is modelled by the
`id` field), `Tree<T>` is the list of roots, and each mutating member
function becomes a pure function from tree to tree.  Machine integers:
`u64` quantities (positions, lengths, loop indices) are modelled as `Nat`;
the one place where `u64` wrap-around is reachable in the source (the
`upper = mid - 1` step of `TreeView::binarySearch`) is modelled with an
explicit `% 2 ^ 64`.  `i32` fields (`parent_index`, `depth`) are modelled
as `Int`.
-/

/-- Mirrors `BinarySearchData`: the cached vertical position and height of a
node. -/
structure BSD where
  position : Nat
  length : Nat
deriving Repr, DecidableEq

/-- The scalar fields of `TreeNode<T>`: `id` models pointer identity,
`cellHints` models the heights returned by `sizeHint` of the per-column
drawables (their widths play no role in any claim). -/
structure ND where
  id : Nat
  parentIndex : Int
  depth : Int
  isCollapsed : Bool
  cellHints : List Nat
  maxCellHeight : Nat
  bs : BSD
deriving Repr, DecidableEq

/-- Mirrors `TreeNode<T>`: node data plus the owned `children` vector. -/
inductive TNode where
  | node : ND → List TNode → TNode
deriving Repr

def TNode.data : TNode → ND
  | .node d _ => d

def TNode.children : TNode → List TNode
  | .node _ cs => cs

def TNode.setPI (n : TNode) (i : Int) : TNode :=
  .node { n.data with parentIndex := i } n.children

def TNode.setDepth (n : TNode) (i : Int) : TNode :=
  .node { n.data with depth := i } n.children

theorem TNode.eta (n : TNode) : TNode.node n.data n.children = n := by
  cases n; rfl

/-- Mirrors `enum class Traversal`. -/
inductive Traversal where
  | Continue
  | Next
  | Break
deriving Repr, DecidableEq

/-- A path addresses a node inside the forest of roots: `[i]` is the `i`-th
root, `i :: p` descends into the `i`-th root's children.  Paths play the
role of the C++ node pointers handed to `Tree` member functions. -/
abbrev NPath := List Nat

def listSet : Nat → α → List α → List α
  | _, _, [] => []
  | 0, x, _ :: t => x :: t
  | n + 1, x, a :: t => a :: listSet n x t

def listModify : Nat → (α → α) → List α → List α
  | _, _, [] => []
  | 0, f, a :: t => f a :: t
  | n + 1, f, a :: t => a :: listModify n f t

def insertAt : Nat → α → List α → List α
  | 0, x, l => x :: l
  | _ + 1, x, [] => [x]
  | n + 1, x, a :: t => a :: insertAt n x t

def eraseAt : Nat → List α → List α
  | _, [] => []
  | 0, _ :: t => t
  | n + 1, a :: t => a :: eraseAt n t

def getAt : NPath → List TNode → Option TNode
  | [], _ => none
  | i :: p, l =>
    match l.get? i with
    | none => none
    | some n =>
      match p with
      | [] => some n
      | _ :: _ => getAt p n.children

def modifyAt : NPath → (TNode → TNode) → List TNode → List TNode
  | [], _, l => l
  | i :: p, f, l =>
    match p with
    | [] => listModify i f l
    | _ :: _ => listModify i (fun n => .node n.data (modifyAt p f n.children)) l

/-- Mirrors the loop `for (i = index + 1; i < size; i++) v[i]->parent_index = i`
in `Tree::insert`: from list position `k` on, `parent_index` is overwritten
with the position.  `cur` is the position of the head of the remaining list. -/
def assignPIFrom (k : Nat) : Nat → List TNode → List TNode
  | _, [] => []
  | cur, .node d cs :: t =>
    (if k ≤ cur then TNode.node { d with parentIndex := (cur : Int) } cs
     else TNode.node d cs) :: assignPIFrom k (cur + 1) t

/-- Mirrors the loop `for (i = node->parent_index; i < size; i++)
v[i]->parent_index--` in `Tree::remove` (run on the vector after the
erase). -/
def decPIFrom (k : Nat) : Nat → List TNode → List TNode
  | _, [] => []
  | cur, .node d cs :: t =>
    (if k ≤ cur then TNode.node { d with parentIndex := d.parentIndex - 1 } cs
     else TNode.node d cs) :: decPIFrom k (cur + 1) t

mutual

/-- Depth-first pre-order flattening of a subtree (the node itself first,
then its children): the "traversal order" of the spec. -/
def flatNode : TNode → List TNode
  | .node d cs => .node d cs :: flatList cs

/-- Depth-first pre-order flattening of a forest. -/
def flatList : List TNode → List TNode
  | [] => []
  | c :: t => flatNode c ++ flatList t

end

mutual

/-- Mirrors the body of the visitor in `Tree::_updateBSData` applied to one
subtree: `node->bs_data.position = position; position += node->bs_data.length`,
then the children (the visitor always returns `Traversal::Continue`, so the
`forEachNode` call is a plain full pre-order sweep).  Returns the running
`position` and the updated subtree. -/
def updBSNode (p : Nat) : TNode → Nat × TNode
  | .node d cs =>
    let d2 := { d with bs := { position := p, length := d.bs.length } }
    let r := updBSList (p + d.bs.length) cs
    (r.1, .node d2 r.2)

/-- Mirrors `Tree::_updateBSData` over a forest; the first component of the
result is the value `_updateBSData` returns. -/
def updBSList (p : Nat) : List TNode → Nat × List TNode
  | [] => (p, [])
  | c :: cs =>
    let r1 := updBSNode p c
    let r2 := updBSList r1.1 cs
    (r2.1, r1.2 :: r2.2)

end

/-- Mirrors the visitor body inside `Tree::_updateDepth`: `sibCount` is
`_node->parent->children.size()` (the structural parent's child count) and
`dv` is the captured local `depth`.  The C++ `cast(i32, size - 1)` is
`(sibCount : Int) - 1` (for `size = 0` the C++ wrap-then-truncate also
yields `-1`). -/
def updDepthVisit (sibCount : Nat) (dv : Int) (d : ND) : Int × ND :=
  if d.parentIndex = 0 then (dv + 1, { d with depth := dv + 1 })
  else if d.parentIndex = (sibCount : Int) - 1 then (dv - 1, { d with depth := dv })
  else (dv, { d with depth := dv })

mutual

/-- The `forEachNode(node->children, ...)` sweep of `Tree::_updateDepth`,
threading the captured `depth` counter through pre-order. -/
def updDepthFixNode (sibCount : Nat) (dv : Int) : TNode → Int × TNode
  | .node d cs =>
    let r := updDepthVisit sibCount dv d
    let r2 := updDepthFixList cs.length r.1 cs
    (r2.1, .node r.2 r2.2)

def updDepthFixList (sibCount : Nat) (dv : Int) : List TNode → Int × List TNode
  | [] => (dv, [])
  | c :: t =>
    let r1 := updDepthFixNode sibCount dv c
    let r2 := updDepthFixList sibCount r1.1 t
    (r2.1, r1.2 :: r2.2)

end

/-- Mirrors `Tree::_updateDepth(parent, node)`: `parentDepth` is
`parent->depth` (or `none` for a null parent).  If the node's depth is
already correct the function returns without touching the subtree;
otherwise the new depth is written and the descendant sweep runs. -/
def updateDepth (parentDepth : Option Int) : TNode → TNode
  | .node d cs =>
    match parentDepth with
    | none =>
      if d.depth ≠ 1 then
        TNode.node { d with depth := 1 } (updDepthFixList cs.length 1 cs).2
      else TNode.node d cs
    | some pd =>
      if d.depth ≠ pd + 1 then
        TNode.node { d with depth := pd + 1 } (updDepthFixList cs.length (pd + 1) cs).2
      else TNode.node d cs

/-- Mirrors `Tree::append(parent, node)`: push onto the chosen child vector,
set `parent_index` to the new last position, run `_updateDepth` on the
appended subtree and then `_updateBSData` on the whole tree. -/
def Tree.append (roots : List TNode) (parentPath : Option NPath) (n : TNode) :
    List TNode :=
  match parentPath with
  | none =>
    (updBSList 0 (roots ++ [updateDepth none (n.setPI (roots.length : Int))])).2
  | some p =>
    (updBSList 0 (modifyAt p (fun parent =>
      TNode.node parent.data
        (parent.children ++
          [updateDepth (some parent.data.depth)
            (n.setPI (parent.children.length : Int))])) roots)).2

/-- Mirrors `Tree::insert(parent, index, node)`: insert at `index`, set the
new node's `parent_index` (and, in the root branch, its depth to 1 up
front), bump the `parent_index` of the following siblings, run
`_updateDepth` on the inserted subtree and `_updateBSData` on the whole
tree. -/
def Tree.insert (roots : List TNode) (parentPath : Option NPath) (index : Nat)
    (n : TNode) : List TNode :=
  match parentPath with
  | none =>
    let l1 := insertAt index ((n.setDepth 1).setPI (index : Int)) roots
    let l2 := assignPIFrom (index + 1) 0 l1
    let l3 := listModify index (updateDepth none) l2
    (updBSList 0 l3).2
  | some p =>
    (updBSList 0 (modifyAt p (fun parent =>
      let cs1 := insertAt index (n.setPI (index : Int)) parent.children
      let cs2 := assignPIFrom (index + 1) 0 cs1
      let cs3 := listModify index (updateDepth (some parent.data.depth)) cs2
      TNode.node parent.data cs3) roots)).2

/-- One level of `Tree::remove`: at the node's own level the vector is
erased at the node's STORED `parent_index` (exactly as
`children.erase(children.begin() + node->parent_index)` does) and the
following entries get `parent_index--`.  `isRoot` tells whether this level
is the roots vector (the C++ code branches on `node->parent`): in the
child branch the detached node gets `parent_index = -1`, in the root
branch it is left as it was (the source resets it only for non-roots). -/
def removeGo (isRoot : Bool) : NPath → List TNode → List TNode × Option TNode
  | [], l => (l, none)
  | i :: p, l =>
    match l.get? i with
    | none => (l, none)
    | some n =>
      match p with
      | [] =>
        let l1 := eraseAt n.data.parentIndex.toNat l
        let l2 := decPIFrom n.data.parentIndex.toNat 0 l1
        (l2, some (if isRoot then n else n.setPI (-1)))
      | _ :: _ =>
        let r := removeGo false p n.children
        (listSet i (.node n.data r.1) l, r.2)

/-- Mirrors `TreeNode<T>* Tree::remove(TreeNode<T>* node)`.  A `none`
argument is the null pointer: the guard `if (!node) return nullptr;` fires
and nothing is touched.  Otherwise the node is detached, `_updateBSData()`
reruns on the tree and `_updateDepth(node->parent, node)` runs on the
detached node (its parent link is null by then in both source branches).
A path that addresses no node models a pointer outside the tree and is
returned untouched (no C++ counterpart; the claims only use valid paths). -/
def Tree.remove (roots : List TNode) (p : Option NPath) :
    List TNode × Option TNode :=
  match p with
  | none => (roots, none)
  | some p =>
    match getAt p roots with
    | none => (roots, none)
    | some _ =>
      let r := removeGo true p roots
      ((updBSList 0 r.1).2, r.2.map (updateDepth none))

mutual

/-- Stored `parent_index` agreement for one node sitting at position `i` of
its sibling vector, and recursively for its subtree. -/
def piNode (i : Nat) : TNode → Bool
  | .node d cs => d.parentIndex == (i : Int) && piList 0 cs

/-- Stored `parent_index` agreement for a sibling vector whose head sits at
position `i`. -/
def piList (i : Nat) : List TNode → Bool
  | [] => true
  | c :: t => piNode i c && piList (i + 1) t

end

mutual

/-- Depth consistency for one node whose parent has depth `pd` (roots use
`pd = 0`, so a root must have depth 1), and recursively for its subtree. -/
def depthNode (pd : Int) : TNode → Bool
  | .node d cs => d.depth == pd + 1 && depthList (pd + 1) cs

/-- Depth consistency for a sibling vector under a parent of depth `pd`. -/
def depthList (pd : Int) : List TNode → Bool
  | [] => true
  | c :: t => depthNode pd c && depthList pd t

end

/-! ### Basic facts about the `parent_index` invariant -/

/-- Every node of the list has internally consistent children
(`parent_index` of grandchildren etc.); the positions of the list members
themselves are not constrained. -/
def piChildren : List TNode → Bool
  | [] => true
  | .node _ cs :: t => piList 0 cs && piChildren t

theorem piList_piChildren {l : List TNode} {i : Nat} (h : piList i l = true) :
    piChildren l = true := by
  induction l generalizing i with
  | nil => rfl
  | cons c t ih =>
    cases c with
    | node d cs =>
      simp only [piList, piNode, Bool.and_eq_true] at h
      simp only [piChildren, Bool.and_eq_true]
      exact ⟨h.1.2, ih h.2⟩

theorem piList_get {l : List TNode} {k i : Nat} {n : TNode}
    (h : piList k l = true) (hg : l.get? i = some n) :
    n.data.parentIndex = ((k + i : Nat) : Int) ∧ piList 0 n.children = true := by
  induction l generalizing k i with
  | nil => simp at hg
  | cons c t ih =>
    cases i with
    | zero =>
      simp only [List.get?] at hg
      cases hg
      cases n with
      | node d cs =>
        simp only [piList, piNode, Bool.and_eq_true, beq_iff_eq] at h
        exact ⟨by simpa using h.1.1, h.1.2⟩
    | succ j =>
      simp only [List.get?] at hg
      simp only [piList, Bool.and_eq_true] at h
      have hr := ih h.2 hg
      refine ⟨?_, hr.2⟩
      rw [show k + (j + 1) = (k + 1) + j by omega]
      exact hr.1

mutual

theorem piNode_updBS (i p : Nat) (n : TNode) :
    piNode i (updBSNode p n).2 = piNode i n := by
  cases n with
  | node d cs =>
    simp only [updBSNode, piNode]
    rw [piList_updBS 0 (p + d.bs.length) cs]

theorem piList_updBS (i p : Nat) (l : List TNode) :
    piList i (updBSList p l).2 = piList i l := by
  match l with
  | [] => rfl
  | c :: t =>
    simp only [updBSList, piList]
    rw [piNode_updBS i p c, piList_updBS (i + 1) (updBSNode p c).1 t]

end

theorem updDepthVisit_parentIndex (sibCount : Nat) (dv : Int) (d : ND) :
    ((updDepthVisit sibCount dv d).2).parentIndex = d.parentIndex := by
  simp only [updDepthVisit]
  split
  · rfl
  · split <;> rfl

mutual

theorem piNode_updDepthFix (i sibCount : Nat) (dv : Int) (n : TNode) :
    piNode i (updDepthFixNode sibCount dv n).2 = piNode i n := by
  cases n with
  | node d cs =>
    simp only [updDepthFixNode, piNode, updDepthVisit_parentIndex]
    rw [piList_updDepthFix 0 cs.length (updDepthVisit sibCount dv d).1 cs]

theorem piList_updDepthFix (i sibCount : Nat) (dv : Int) (l : List TNode) :
    piList i (updDepthFixList sibCount dv l).2 = piList i l := by
  match l with
  | [] => rfl
  | c :: t =>
    simp only [updDepthFixList, piList]
    rw [piNode_updDepthFix i sibCount dv c,
      piList_updDepthFix (i + 1) sibCount (updDepthFixNode sibCount dv c).1 t]

end

theorem piNode_updateDepth (i : Nat) (pd : Option Int) (n : TNode) :
    piNode i (updateDepth pd n) = piNode i n := by
  cases n with
  | node d cs =>
    cases pd with
    | none =>
      simp only [updateDepth]
      split
      · simp only [piNode]
        rw [piList_updDepthFix 0 cs.length 1 cs]
      · rfl
    | some pd =>
      simp only [updateDepth]
      split
      · simp only [piNode]
        rw [piList_updDepthFix 0 cs.length (pd + 1) cs]
      · rfl

theorem piList_append_single (i : Nat) (l : List TNode) (x : TNode) :
    piList i (l ++ [x]) = (piList i l && piNode (i + l.length) x) := by
  induction l generalizing i with
  | nil => simp [piList]
  | cons c t ih =>
    show piList i (c :: (t ++ [x])) = _
    simp only [piList, List.length_cons]
    rw [ih (i + 1), show i + 1 + t.length = i + (t.length + 1) by omega,
      Bool.and_assoc]

theorem piList_listModify {l : List TNode} {k i : Nat} {f : TNode → TNode}
    (h : piList k l = true)
    (hf : ∀ j m, l.get? i = some m → piNode j m = true → piNode j (f m) = true) :
    piList k (listModify i f l) = true := by
  induction l generalizing k i with
  | nil => simp [listModify, piList]
  | cons c t ih =>
    simp only [piList, Bool.and_eq_true] at h
    cases i with
    | zero =>
      simp only [listModify, piList, Bool.and_eq_true]
      exact ⟨hf k c rfl h.1, h.2⟩
    | succ j =>
      simp only [listModify, piList, Bool.and_eq_true]
      exact ⟨h.1, ih h.2 (fun j' m hm hpi => hf j' m hm hpi)⟩

theorem piList_modifyAt {p : NPath} {l : List TNode} {f : TNode → TNode}
    (h : piList 0 l = true)
    (hf : ∀ j m, getAt p l = some m → piNode j m = true → piNode j (f m) = true) :
    piList 0 (modifyAt p f l) = true := by
  induction p generalizing l f with
  | nil => simpa only [modifyAt] using h
  | cons i rest ih =>
    cases rest with
    | nil =>
      simp only [modifyAt]
      refine piList_listModify h ?_
      intro j m hm hpi
      have hm' : l[i]? = some m := by simpa using hm
      exact hf j m (by simp [getAt, hm']) hpi
    | cons i2 rest2 =>
      simp only [modifyAt]
      refine piList_listModify h ?_
      intro j m hm hpi
      cases m with
      | node d cs =>
        simp only [piNode, Bool.and_eq_true] at hpi ⊢
        refine ⟨hpi.1, ?_⟩
        refine ih hpi.2 ?_
        intro j' m' hm' hpi'
        refine hf j' m' ?_ hpi'
        simp only [getAt, hm]
        exact hm'


theorem piList_assignPIFrom_all {l : List TNode} :
    ∀ {cur k : Nat}, k ≤ cur → piChildren l = true →
    piList cur (assignPIFrom k cur l) = true := by
  induction l with
  | nil => intro cur k _ _; rfl
  | cons c t ih =>
    intro cur k hk h
    cases c with
    | node d cs =>
      simp only [piChildren, Bool.and_eq_true] at h
      simp only [assignPIFrom, if_pos hk, piList, Bool.and_eq_true]
      refine ⟨?_, ih (by omega) h.2⟩
      simp [piNode, h.1]

theorem piList_insert_assign {x : TNode} (hx0 : piList 0 x.children = true) :
    ∀ {l : List TNode} {cur i : Nat}, piList cur l = true →
    x.data.parentIndex = ((cur + i : Nat) : Int) → i ≤ l.length →
    piList cur (assignPIFrom (cur + i + 1) cur (insertAt i x l)) = true := by
  intro l
  induction l with
  | nil =>
    intro cur i h hpi hi
    have hi0 : i = 0 := by simpa using hi
    subst hi0
    cases x with
    | node d cs =>
      simp only [TNode.data] at hpi
      simp only [TNode.children] at hx0
      simp only [insertAt, assignPIFrom]
      rw [if_neg (by omega)]
      simp only [piList, Bool.and_eq_true]
      refine ⟨?_, trivial⟩
      simp [piNode, hpi, hx0]
  | cons a t ih =>
    intro cur i h hpi hi
    simp only [piList, Bool.and_eq_true] at h
    cases i with
    | zero =>
      cases x with
      | node d cs =>
        simp only [TNode.data] at hpi
        simp only [TNode.children] at hx0
        simp only [insertAt, assignPIFrom]
        rw [if_neg (by omega)]
        simp only [piList, Bool.and_eq_true]
        constructor
        · simp [piNode, hpi, hx0]
        · refine piList_assignPIFrom_all (le_refl _) ?_
          have h1 : piChildren (a :: t) = true := by
            exact piList_piChildren (show piList cur (a :: t) = true by
              simp [piList, Bool.and_eq_true]; exact ⟨h.1, h.2⟩)
          exact h1
    | succ j =>
      simp only [insertAt, assignPIFrom]
      cases a with
      | node d cs =>
        simp only [piList, Bool.and_eq_true] at h ⊢
        rw [if_neg (by omega)]
        constructor
        · exact h.1
        · have hlen : j ≤ t.length := by
            simp only [List.length_cons] at hi; omega
          have := ih h.2 (by rw [hpi]; congr 1; omega) hlen
          rw [show cur + (j + 1) + 1 = cur + 1 + j + 1 by omega]
          exact this

theorem piList_decPIFrom_all {l : List TNode} :
    ∀ {cur k : Nat}, k ≤ cur → piList (cur + 1) l = true →
    piList cur (decPIFrom k cur l) = true := by
  induction l with
  | nil => intro cur k _ _; rfl
  | cons c t ih =>
    intro cur k hk h
    cases c with
    | node d cs =>
      simp only [piList, piNode, Bool.and_eq_true, beq_iff_eq] at h
      simp only [decPIFrom, if_pos hk, piList, Bool.and_eq_true]
      constructor
      · simp only [piNode, Bool.and_eq_true, beq_iff_eq]
        exact ⟨by rw [h.1.1]; push_cast; ring, h.1.2⟩
      · exact ih (by omega) h.2

theorem piList_erase_dec {l : List TNode} :
    ∀ {cur i : Nat}, piList cur l = true → i < l.length →
    piList cur (decPIFrom (cur + i) cur (eraseAt i l)) = true := by
  induction l with
  | nil => intro cur i _ hi; simp at hi
  | cons a t ih =>
    intro cur i h hi
    simp only [piList, Bool.and_eq_true] at h
    cases i with
    | zero =>
      simp only [eraseAt]
      exact piList_decPIFrom_all (le_refl _) h.2
    | succ j =>
      simp only [eraseAt, decPIFrom]
      cases a with
      | node d cs =>
        simp only [piList, Bool.and_eq_true]
        rw [if_neg (by omega)]
        refine ⟨h.1, ?_⟩
        have hlen : j < t.length := by
          simp only [List.length_cons] at hi; omega
        have := ih h.2 hlen
        rw [show cur + (j + 1) = cur + 1 + j by omega]
        exact this

theorem piList_listSet {l : List TNode} :
    ∀ {k i : Nat} {x : TNode}, piList k l = true → piNode (k + i) x = true →
    piList k (listSet i x l) = true := by
  induction l with
  | nil => intro k i x _ _; simp [listSet, piList]
  | cons c t ih =>
    intro k i x h hx
    simp only [piList, Bool.and_eq_true] at h
    cases i with
    | zero =>
      simp only [listSet, piList, Bool.and_eq_true]
      exact ⟨by simpa using hx, h.2⟩
    | succ j =>
      simp only [listSet, piList, Bool.and_eq_true]
      refine ⟨h.1, ih h.2 ?_⟩
      rw [show k + 1 + j = k + (j + 1) by omega]
      exact hx

theorem piList_removeGo (isRoot : Bool) {p : NPath} {l : List TNode}
    (h : piList 0 l = true) :
    piList 0 (removeGo isRoot p l).1 = true := by
  induction p generalizing isRoot l with
  | nil => simpa only [removeGo] using h
  | cons i rest ih =>
    cases rest with
    | nil =>
      simp only [removeGo]
      cases hg : l.get? i with
      | none => exact h
      | some n =>
        have := piList_get h hg
        simp only [this.1]
        have htn : ((0 + i : Nat) : Int).toNat = i := by simp
        rw [htn]
        have hilen : i < l.length := List.get?_eq_some.mp hg |>.1
        have := piList_erase_dec h (by exact hilen)
        simpa using this
    | cons i2 rest2 =>
      simp only [removeGo]
      cases hg : l.get? i with
      | none => exact h
      | some parent =>
        have hp := piList_get h hg
        refine piList_listSet h ?_
        simp only [piNode, Bool.and_eq_true, beq_iff_eq]
        cases parent with
        | node d cs =>
          simp only [TNode.data] at hp
          simp only [TNode.children] at hp
          exact ⟨by simpa using hp.1, ih false hp.2⟩

theorem setPI_children (n : TNode) (j : Int) : (n.setPI j).children = n.children := rfl

theorem setPI_parentIndex (n : TNode) (j : Int) : (n.setPI j).data.parentIndex = j := rfl

theorem setDepth_children (n : TNode) (j : Int) : (n.setDepth j).children = n.children := rfl

theorem piNode_setPI (i : Nat) (n : TNode) (j : Int) :
    piNode i (n.setPI j) = (j == (i : Int) && piList 0 n.children) := by
  cases n with
  | node d cs => rfl

/-- Precondition matching the C++ contract of `Tree::insert`: the insertion
index must not run past the end of the target sibling vector
(`vector::insert` past the end is undefined behaviour in the source). -/
def insertIndexOk (roots : List TNode) (pp : Option NPath) (index : Nat) : Prop :=
  match pp with
  | none => index ≤ roots.length
  | some p => ∀ m, getAt p roots = some m → index ≤ m.children.length

/-- C1: after any single call to `Tree::append`, `Tree::insert` or
`Tree::remove` returns, every node still in the tree has `parent_index`
equal to its actual index in its parent's children vector, and every root
has `parent_index` equal to its index in the roots vector (`piList 0`
states exactly this).  Preconditions: the invariant held before the call,
the attached subtree was internally consistent, and the insertion index was
in range (the C++ erase/insert positions presuppose this). -/
theorem c1_parent_index_invariant :
    (∀ (roots : List TNode) (pp : Option NPath) (n : TNode),
        piList 0 roots = true → piList 0 n.children = true →
        piList 0 (Tree.append roots pp n) = true) ∧
    (∀ (roots : List TNode) (pp : Option NPath) (index : Nat) (n : TNode),
        piList 0 roots = true → piList 0 n.children = true →
        insertIndexOk roots pp index →
        piList 0 (Tree.insert roots pp index n) = true) ∧
    (∀ (roots : List TNode) (p : Option NPath),
        piList 0 roots = true →
        piList 0 (Tree.remove roots p).1 = true) := by
  refine ⟨?_, ?_, ?_⟩
  · intro roots pp n h hn
    cases pp with
    | none =>
      simp only [Tree.append]
      rw [piList_updBS, piList_append_single]
      simp only [Bool.and_eq_true]
      refine ⟨h, ?_⟩
      rw [piNode_updateDepth, piNode_setPI]
      simp [hn]
    | some p =>
      simp only [Tree.append]
      rw [piList_updBS]
      refine piList_modifyAt h ?_
      intro j m _ hpi
      cases m with
      | node d cs =>
        simp only [piNode, Bool.and_eq_true] at hpi ⊢
        refine ⟨hpi.1, ?_⟩
        rw [piList_append_single]
        simp only [Bool.and_eq_true]
        refine ⟨hpi.2, ?_⟩
        rw [piNode_updateDepth, piNode_setPI]
        simp only [TNode.children, TNode.data] at *
        simp [hn]
  · intro roots pp index n h hn hidx
    cases pp with
    | none =>
      simp only [Tree.insert]
      rw [piList_updBS]
      refine piList_listModify ?_ ?_
      · have hx0 : piList 0 ((n.setDepth 1).setPI (index : Int)).children = true := by
          rw [setPI_children, setDepth_children]; exact hn
        have := @piList_insert_assign ((n.setDepth 1).setPI (index : Int)) hx0
          roots 0 index h
          (by rw [setPI_parentIndex]; simp) (by simpa [insertIndexOk] using hidx)
        simpa using this
      · intro j m _ hpi
        rw [piNode_updateDepth]
        exact hpi
    | some p =>
      simp only [Tree.insert]
      rw [piList_updBS]
      refine piList_modifyAt h ?_
      intro j m hm hpi
      cases m with
      | node d cs =>
        simp only [piNode, Bool.and_eq_true] at hpi ⊢
        refine ⟨hpi.1, ?_⟩
        refine piList_listModify ?_ ?_
        · have hx0 : piList 0 (n.setPI (index : Int)).children = true := by
            rw [setPI_children]; exact hn
          have hlen : index ≤ cs.length := by
            have := hidx (TNode.node d cs) hm
            simpa [TNode.children] using this
          have := @piList_insert_assign (n.setPI (index : Int)) hx0
            cs 0 index hpi.2 (by rw [setPI_parentIndex]; simp) hlen
          simpa using this
        · intro j' m' _ hpi'
          rw [piNode_updateDepth]
          exact hpi'
  · intro roots p h
    cases p with
    | none => exact h
    | some p =>
      simp only [Tree.remove]
      cases hg : getAt p roots with
      | none => exact h
      | some n =>
        rw [piList_updBS]
        exact piList_removeGo true h

/-- A freshly constructed `TreeNode` (constructor defaults: `parent_index`
`-1`, depth 0) with one cell of height 4, used as concrete input for
witnesses and scenarios. -/
def freshNode (i : Nat) : TNode :=
  .node { id := i, parentIndex := -1, depth := 0, isCollapsed := false,
          cellHints := [4], maxCellHeight := 0, bs := ⟨0, 4⟩ } []

def c1Roots : List TNode :=
  [.node { id := 10, parentIndex := 0, depth := 1, isCollapsed := false,
           cellHints := [4], maxCellHeight := 0, bs := ⟨0, 4⟩ } [],
   .node { id := 11, parentIndex := 1, depth := 1, isCollapsed := false,
           cellHints := [4], maxCellHeight := 0, bs := ⟨4, 4⟩ } []]

theorem c1_parent_index_invariant_witness :
    piList 0 (Tree.append c1Roots (some [0]) (freshNode 12)) = true ∧
    piList 0 (Tree.insert c1Roots none 1 (freshNode 13)) = true ∧
    piList 0 (Tree.remove c1Roots (some [1])).1 = true :=
  ⟨c1_parent_index_invariant.1 c1Roots (some [0]) (freshNode 12)
      (by decide) (by decide),
   c1_parent_index_invariant.2.1 c1Roots none 1 (freshNode 13)
      (by decide) (by decide) (show 1 ≤ c1Roots.length by decide),
   c1_parent_index_invariant.2.2 c1Roots (some [1]) (by decide)⟩

/-- C10: `Tree::remove(nullptr)` hits the guard `if (!node) return nullptr;`:
it returns null and the model — roots vector and every node field — is
exactly what it was before the call. -/
theorem c10_remove_null_is_noop (roots : List TNode) :
    Tree.remove roots none = (roots, none) := rfl

/-- The C2 scenario: build `X[C0[D], C1]` out of legal model calls, detach
`X` with `Tree::remove`, append a new root `R`, then append the detached
`X` back underneath `R`.  Every step is an ordinary model operation. -/
def c2Tree : List TNode :=
  let t1 := Tree.append [] none (freshNode 1)
  let t2 := Tree.append t1 (some [0]) (freshNode 2)
  let t3 := Tree.append t2 (some [0, 0]) (freshNode 3)
  let t4 := Tree.append t3 (some [0]) (freshNode 4)
  let r5 := Tree.remove t4 (some [0])
  let t6 := Tree.append r5.1 none (freshNode 5)
  match r5.2 with
  | some x => Tree.append t6 (some [0]) x
  | none => t6

/-- C2 fails on the code: after the final `Tree::append` of the scenario the
depth invariant is broken — the node at path `[0, 0]` (the re-attached `X`)
has depth 2 but its second child (path `[0, 0, 1]`) has depth 4 instead of
3\.  Cause: the visitor in `Tree::_updateDepth` tests `parent_index == 0`
before the last-sibling test, so a node that is both first and last child
(an only child) increments the running depth but never decrements it. -/
theorem c2_depth_invariant_fails :
    depthList 0 c2Tree = false ∧
    (getAt [0, 0] c2Tree).map (fun n => n.data.depth) = some 2 ∧
    (getAt [0, 0, 1] c2Tree).map (fun n => n.data.depth) = some 4 :=
  ⟨by decide, by decide, by decide⟩

/-! ### C3: the position index written by `_updateBSData` -/

/-- Bool version of the chaining property of the spec: along a flattened
node sequence starting at offset `p`, each node's stored `position` is the
running total, advanced by its stored `length`. -/
def chainedB : Nat → List TNode → Bool
  | _, [] => true
  | p, n :: ns => (n.data.bs.position == p) && chainedB (p + n.data.bs.length) ns

mutual

/-- Total indexed extent of a subtree: the sum of the stored `length` of
every node (collapsed or not), exactly what `_updateBSData` accumulates. -/
def lenSumNode : TNode → Nat
  | .node d cs => d.bs.length + lenSumList cs

/-- Total indexed extent of a forest. -/
def lenSumList : List TNode → Nat
  | [] => 0
  | c :: t => lenSumNode c + lenSumList t

end

mutual

theorem updBS_chain_node (p : Nat) (n : TNode) (rest : List TNode) :
    (updBSNode p n).1 = p + lenSumNode n ∧
    chainedB p (flatNode (updBSNode p n).2 ++ rest) =
      chainedB (p + lenSumNode n) rest := by
  cases n with
  | node d cs =>
    have ih := updBS_chain_list (p + d.bs.length) cs rest
    constructor
    · show (updBSList (p + d.bs.length) cs).1 = _
      rw [ih.1, lenSumNode]
      omega
    · show chainedB p
        (TNode.node { d with bs := { position := p, length := d.bs.length } }
          (updBSList (p + d.bs.length) cs).2 ::
            (flatList (updBSList (p + d.bs.length) cs).2 ++ rest)) = _
      simp only [chainedB, TNode.data, beq_self_eq_true, Bool.true_and]
      rw [ih.2, lenSumNode]
      rw [show p + d.bs.length + lenSumList cs = p + (d.bs.length + lenSumList cs)
        by omega]

theorem updBS_chain_list (p : Nat) (l : List TNode) (rest : List TNode) :
    (updBSList p l).1 = p + lenSumList l ∧
    chainedB p (flatList (updBSList p l).2 ++ rest) =
      chainedB (p + lenSumList l) rest := by
  match l with
  | [] => simp [updBSList, flatList, lenSumList]
  | c :: t =>
    have ihn := updBS_chain_node p c (flatList (updBSList (updBSNode p c).1 t).2 ++ rest)
    have iht := updBS_chain_list (updBSNode p c).1 t rest
    constructor
    · show (updBSList (updBSNode p c).1 t).1 = _
      rw [iht.1, ihn.1, lenSumList]
      omega
    · show chainedB p
        (flatList ((updBSNode p c).2 :: (updBSList (updBSNode p c).1 t).2) ++ rest) = _
      simp only [flatList, List.append_assoc]
      rw [ihn.2, ← ihn.1, iht.2, ihn.1]
      simp only [lenSumList]
      rw [show p + lenSumNode c + lenSumList t = p + (lenSumNode c + lenSumList t)
        by omega]

end

theorem chainedB_cons {p : Nat} {n : TNode} {ns : List TNode}
    (h : chainedB p (n :: ns) = true) :
    n.data.bs.position = p ∧ chainedB (p + n.data.bs.length) ns = true := by
  simp only [chainedB, Bool.and_eq_true, beq_iff_eq] at h
  exact h

theorem chainedB_get_succ {L : List TNode} :
    ∀ {p : Nat}, chainedB p L = true →
    ∀ i, (hi : i + 1 < L.length) →
    (L.get ⟨i + 1, hi⟩).data.bs.position =
      (L.get ⟨i, by omega⟩).data.bs.position +
      (L.get ⟨i, by omega⟩).data.bs.length := by
  induction L with
  | nil => intro p _ i hi; simp at hi
  | cons n ns ih =>
    intro p h i hi
    have hc := chainedB_cons h
    cases i with
    | zero =>
      cases ns with
      | nil => simp at hi
      | cons m ms =>
        have hm := chainedB_cons hc.2
        simp only [List.get]
        rw [hm.1, hc.1]
    | succ j =>
      simp only [List.length_cons] at hi
      have := ih hc.2 j (by omega)
      simpa using this

theorem chainedB_pos_ge {L : List TNode} :
    ∀ {p : Nat}, chainedB p L = true →
    ∀ i, (hi : i < L.length) → p ≤ (L.get ⟨i, hi⟩).data.bs.position := by
  induction L with
  | nil => intro p _ i hi; simp at hi
  | cons n ns ih =>
    intro p h i hi
    have hc := chainedB_cons h
    cases i with
    | zero => simp [List.get, hc.1]
    | succ j =>
      simp only [List.length_cons] at hi
      have := ih hc.2 j (by omega)
      simp only [List.get]
      omega

theorem chainedB_mono {L : List TNode} :
    ∀ {p : Nat}, chainedB p L = true →
    ∀ i j, (hij : i ≤ j) → (hj : j < L.length) →
    (L.get ⟨i, by omega⟩).data.bs.position ≤
      (L.get ⟨j, hj⟩).data.bs.position := by
  induction L with
  | nil => intro p _ i j _ hj; simp at hj
  | cons n ns ih =>
    intro p h i j hij hj
    have hc := chainedB_cons h
    cases i with
    | zero =>
      have hge := chainedB_pos_ge h j hj
      show n.data.bs.position ≤ _
      rw [hc.1]
      exact hge
    | succ i' =>
      cases j with
      | zero => omega
      | succ j' =>
        simp only [List.length_cons] at hj
        have := ih hc.2 i' j' (by omega) (by omega)
        simpa using this

/-- The flattened pre-order sequence of the tree right after
`_updateBSData` has rebuilt the position index. -/
def rebuiltFlat (roots : List TNode) : List TNode :=
  flatList (updBSList 0 roots).2

/-- C3: after `Tree::_updateBSData` runs, for every pair of consecutive
nodes in depth-first pre-order over all nodes `position(next) =
position(current) + length(current)`; position is monotonically
non-decreasing along that order; the first node sits at position 0; and
the returned value is the total indexed extent (the sum of all stored
lengths). -/
theorem c3_position_index_chaining (roots : List TNode) :
    (∀ i, (hi : i + 1 < (rebuiltFlat roots).length) →
      ((rebuiltFlat roots).get ⟨i + 1, hi⟩).data.bs.position =
        ((rebuiltFlat roots).get ⟨i, by omega⟩).data.bs.position +
        ((rebuiltFlat roots).get ⟨i, by omega⟩).data.bs.length) ∧
    (∀ i j, (hij : i ≤ j) → (hj : j < (rebuiltFlat roots).length) →
      ((rebuiltFlat roots).get ⟨i, by omega⟩).data.bs.position ≤
        ((rebuiltFlat roots).get ⟨j, hj⟩).data.bs.position) ∧
    (∀ n ns, rebuiltFlat roots = n :: ns → n.data.bs.position = 0) ∧
    (updBSList 0 roots).1 = lenSumList roots := by
  have hrest := updBS_chain_list 0 roots []
  have hch : chainedB 0 (rebuiltFlat roots) = true := by
    have h2 := hrest.2
    rw [List.append_nil] at h2
    rw [rebuiltFlat, h2]
    rfl
  refine ⟨fun i hi => chainedB_get_succ hch i hi,
    fun i j hij hj => chainedB_mono hch i j hij hj,
    fun n ns hL => ?_, by simpa using hrest.1⟩
  rw [hL] at hch
  exact (chainedB_cons hch).1

def c3Roots : List TNode :=
  [TNode.node { id := 20, parentIndex := 0, depth := 1, isCollapsed := false,
                cellHints := [7], maxCellHeight := 7, bs := ⟨0, 7⟩ }
     [TNode.node { id := 21, parentIndex := 0, depth := 2, isCollapsed := false,
                   cellHints := [5], maxCellHeight := 5, bs := ⟨0, 5⟩ } []],
   TNode.node { id := 22, parentIndex := 1, depth := 1, isCollapsed := false,
                cellHints := [9], maxCellHeight := 9, bs := ⟨0, 9⟩ } []]

theorem c3_position_index_chaining_witness :
    ((rebuiltFlat c3Roots).get ⟨1, by decide⟩).data.bs.position =
      ((rebuiltFlat c3Roots).get ⟨0, by decide⟩).data.bs.position +
      ((rebuiltFlat c3Roots).get ⟨0, by decide⟩).data.bs.length ∧
    ((rebuiltFlat c3Roots).get ⟨0, by decide⟩).data.bs.position ≤
      ((rebuiltFlat c3Roots).get ⟨2, by decide⟩).data.bs.position ∧
    (updBSList 0 c3Roots).1 = lenSumList c3Roots :=
  ⟨(c3_position_index_chaining c3Roots).1 0 (by decide),
   (c3_position_index_chaining c3Roots).2.1 0 2 (by decide) (by decide),
   (c3_position_index_chaining c3Roots).2.2.2⟩

/-! ### C7: the `descend` / `forEachNode` traversal -/

mutual

/-- Mirrors `Tree::descend(early_exit, root, fn)` with a stateful visitor
(the C++ lambdas capture and mutate locals; the state `σ` is that
capture).  Returns the final state, the value left in `early_exit`, and
the list of nodes on which `fn` was invoked, in order.  The C++ `fn =
nullptr` case is not used by any claim and is omitted. -/
def descend (fn : σ → TNode → σ × Traversal) (s : σ) : TNode → σ × Traversal × List TNode
  | .node d cs =>
    let r := fn s (.node d cs)
    match r.2 with
    | .Break => (r.1, .Break, [.node d cs])
    | .Next => (r.1, .Next, [.node d cs])
    | .Continue =>
      match cs with
      | [] => (r.1, .Continue, [.node d cs])
      | _ :: _ =>
        let rl := descendList fn r.1 cs
        (rl.1, rl.2.1, .node d cs :: rl.2.2)

/-- The `for (child : root->children)` loop inside `descend`: children left
to right, early return on `Break`; the exit value after the loop is the
one left by the last child processed. -/
def descendList (fn : σ → TNode → σ × Traversal) (s : σ) : List TNode → σ × Traversal × List TNode
  | [] => (s, .Continue, [])
  | c :: cs =>
    let r1 := descend fn s c
    match r1.2.1 with
    | .Break => r1
    | _ =>
      match cs with
      | [] => r1
      | _ :: _ =>
        let r2 := descendList fn r1.1 cs
        (r2.1, r2.2.1, r1.2.2 ++ r2.2.2)

end

/-- Mirrors `Tree::forEachNode(roots, fn)`: iterate the roots, `descend`
into each, and stop the loop only when `early_exit` came back as
`Break`. -/
def forEachNode (fn : σ → TNode → σ × Traversal) (s : σ) : List TNode → σ × List TNode
  | [] => (s, [])
  | r :: rs =>
    let r1 := descend fn s r
    match r1.2.1 with
    | .Break => (r1.1, r1.2.2)
    | _ =>
      let r2 := forEachNode fn r1.1 rs
      (r2.1, r1.2.2 ++ r2.2)

/-- Spec-side walker, written from the claim's words, for the refinement
proof: process the forest in order; at each node invoke the visitor;
`Break` aborts the entire traversal immediately (abort flag `true`),
`Next` (SkipSubtree) skips the node's children and resumes at the next
sibling, `Continue` recurses into the children first and then the
siblings. -/
def specVisit (fn : σ → TNode → σ × Traversal) : σ → List TNode → σ × Bool × List TNode
  | s, [] => (s, false, [])
  | s, n :: rest =>
    let r := fn s n
    match r.2 with
    | .Break => (r.1, true, [n])
    | .Next =>
      let r2 := specVisit fn r.1 rest
      (r2.1, r2.2.1, n :: r2.2.2)
    | .Continue =>
      let rc := specVisit fn r.1 n.children
      if rc.2.1 then (rc.1, true, n :: rc.2.2)
      else
        let r2 := specVisit fn rc.1 rest
        (r2.1, r2.2.1, (n :: rc.2.2) ++ r2.2.2)
termination_by _ l => sizeOf l
decreasing_by
  all_goals cases n
  all_goals simp [TNode.children]
  all_goals omega

theorem descendList_spec {σ : Type} (fn : σ → TNode → σ × Traversal) :
    ∀ (l : List TNode) (s : σ),
    (descendList fn s l).1 = (specVisit fn s l).1 ∧
    (((descendList fn s l).2.1 = Traversal.Break) ↔ (specVisit fn s l).2.1 = true) ∧
    (descendList fn s l).2.2 = (specVisit fn s l).2.2 := by
  intro l
  match l with
  | [] => intro s; simp [descendList, specVisit]
  | TNode.node d cc :: cs =>
    intro s
    cases hfn : fn s (TNode.node d cc) with
    | mk s1 tr =>
      cases tr with
      | Break => simp [descendList, descend, specVisit, hfn]
      | Next =>
        cases cs with
        | nil => simp [descendList, descend, specVisit, hfn]
        | cons c2 cs2 =>
          have ih := descendList_spec fn (c2 :: cs2) s1
          simp only [descendList, descend, specVisit, hfn] at ih ⊢
          refine ⟨ih.1, ih.2.1, ?_⟩
          rw [ih.2.2, List.singleton_append]
      | Continue =>
        cases cc with
        | nil =>
          cases cs with
          | nil => simp [descendList, descend, specVisit, hfn, TNode.children]
          | cons c2 cs2 =>
            have ih := descendList_spec fn (c2 :: cs2) s1
            simp only [descendList, descend, specVisit, hfn, TNode.children,
              Bool.false_eq_true, if_false] at ih ⊢
            refine ⟨ih.1, ih.2.1, ?_⟩
            rw [ih.2.2, List.singleton_append]
        | cons b bb =>
          have ihc := descendList_spec fn (b :: bb) s1
          cases hex : (descendList fn s1 (b :: bb)).2.1 with
          | Break =>
            have hflag : (specVisit fn s1 (b :: bb)).2.1 = true := ihc.2.1.mp hex
            simp only [descendList, descend, specVisit, hfn, TNode.children]
              at ihc hex hflag ⊢
            simp only [hex, hflag, if_true]
            exact ⟨ihc.1, by simp, by rw [ihc.2.2]⟩
          | Next =>
            have hflag : (specVisit fn s1 (b :: bb)).2.1 = false := by
              cases hsv : (specVisit fn s1 (b :: bb)).2.1 with
              | false => rfl
              | true =>
                have hbr := ihc.2.1.mpr hsv
                rw [hex] at hbr
                exact Traversal.noConfusion hbr
            cases cs with
            | nil =>
              simp only [descendList, descend, specVisit, hfn, TNode.children]
                at ihc hex hflag ⊢
              simp only [hex, hflag, Bool.false_eq_true, if_false]
              exact ⟨ihc.1, by simp, by rw [ihc.2.2, List.append_nil]⟩
            | cons c2 cs2 =>
              have iht := descendList_spec fn (c2 :: cs2)
                (descendList fn s1 (b :: bb)).1
              simp only [descendList, descend, specVisit, hfn, TNode.children]
                at ihc hex hflag iht ⊢
              simp only [hex, hflag, Bool.false_eq_true, if_false]
              rw [← ihc.1]
              exact ⟨iht.1, iht.2.1, by rw [ihc.2.2, iht.2.2]⟩
          | Continue =>
            have hflag : (specVisit fn s1 (b :: bb)).2.1 = false := by
              cases hsv : (specVisit fn s1 (b :: bb)).2.1 with
              | false => rfl
              | true =>
                have hbr := ihc.2.1.mpr hsv
                rw [hex] at hbr
                exact Traversal.noConfusion hbr
            cases cs with
            | nil =>
              simp only [descendList, descend, specVisit, hfn, TNode.children]
                at ihc hex hflag ⊢
              simp only [hex, hflag, Bool.false_eq_true, if_false]
              exact ⟨ihc.1, by simp, by rw [ihc.2.2, List.append_nil]⟩
            | cons c2 cs2 =>
              have iht := descendList_spec fn (c2 :: cs2)
                (descendList fn s1 (b :: bb)).1
              simp only [descendList, descend, specVisit, hfn, TNode.children]
                at ihc hex hflag iht ⊢
              simp only [hex, hflag, Bool.false_eq_true, if_false]
              rw [← ihc.1]
              exact ⟨iht.1, iht.2.1, by rw [ihc.2.2, iht.2.2]⟩
termination_by l => sizeOf l


theorem forEachNode_eq_descendList {σ : Type} (fn : σ → TNode → σ × Traversal) :
    ∀ (l : List TNode) (s : σ),
    forEachNode fn s l = ((descendList fn s l).1, (descendList fn s l).2.2) := by
  intro l
  induction l with
  | nil => intro s; rfl
  | cons c cs ih =>
    intro s
    cases hex : (descend fn s c).2.1 with
    | Break => simp only [forEachNode, descendList, hex]
    | Next =>
      simp only [forEachNode, descendList, hex]
      cases cs with
      | nil => simp [forEachNode]
      | cons c2 cs2 => simp [ih]
    | Continue =>
      simp only [forEachNode, descendList, hex]
      cases cs with
      | nil => simp [forEachNode]
      | cons c2 cs2 => simp [ih]

theorem descendList_continue {σ : Type} (fn : σ → TNode → σ × Traversal)
    (hc : ∀ s n, (fn s n).2 = Traversal.Continue) :
    ∀ (l : List TNode) (s : σ),
    (descendList fn s l).2.1 ≠ Traversal.Break ∧
    (descendList fn s l).2.2 = flatList l := by
  intro l
  match l with
  | [] => intro s; simp [descendList, flatList]
  | TNode.node d cc :: cs =>
    intro s
    have hdes : (descend fn s (TNode.node d cc)).2.1 ≠ Traversal.Break ∧
        (descend fn s (TNode.node d cc)).2.2 = flatNode (TNode.node d cc) := by
      cases cc with
      | nil => simp [descend, hc, flatNode, flatList]
      | cons b bb =>
        have ihc := descendList_continue fn hc (b :: bb)
          (fn s (TNode.node d (b :: bb))).1
        cases hex : (descendList fn (fn s (TNode.node d (b :: bb))).1 (b :: bb)).2.1 with
        | Break => exact absurd hex ihc.1
        | Next =>
          constructor
          · simp [descend, hc, hex]
          · simp only [descend, hc, flatNode]
            rw [← ihc.2]
        | Continue =>
          constructor
          · simp [descend, hc, hex]
          · simp only [descend, hc, flatNode]
            rw [← ihc.2]
    cases hex : (descend fn s (TNode.node d cc)).2.1 with
    | Break => exact absurd hex hdes.1
    | Next =>
      simp only [descendList, hex]
      cases cs with
      | nil =>
        simp only [flatList]
        exact ⟨by simp [hex], by rw [hdes.2, List.append_nil]⟩
      | cons c2 cs2 =>
        have iht := descendList_continue fn hc (c2 :: cs2)
          (descend fn s (TNode.node d cc)).1
        simp only [flatList]
        exact ⟨by simp [iht.1], by rw [hdes.2, iht.2]; simp [flatList]⟩
    | Continue =>
      simp only [descendList, hex]
      cases cs with
      | nil =>
        simp only [flatList]
        exact ⟨by simp [hex], by rw [hdes.2, List.append_nil]⟩
      | cons c2 cs2 =>
        have iht := descendList_continue fn hc (c2 :: cs2)
          (descend fn s (TNode.node d cc)).1
        simp only [flatList]
        exact ⟨by simp [iht.1], by rw [hdes.2, iht.2]; simp [flatList]⟩
termination_by l => sizeOf l

/-- C7: `forEachNode` visits nodes depth-first, pre-order, children in
child-sequence order; a visitor returning `Next` (SkipSubtree) skips the
current node's children and resumes at the next sibling (or ascends); a
visitor returning `Break` aborts the entire traversal immediately, through
all recursion levels.  Formally the source-shaped `descend`/`forEachNode`
pair agrees, for every stateful visitor, with `specVisit`, the walker
written from the claim's words — and with the plain pre-order flattening
whenever the visitor always continues. -/
theorem c7_forEachNode_semantics :
    (∀ (σ : Type) (fn : σ → TNode → σ × Traversal) (s : σ) (roots : List TNode),
      (forEachNode fn s roots).1 = (specVisit fn s roots).1 ∧
      (forEachNode fn s roots).2 = (specVisit fn s roots).2.2) ∧
    (∀ (σ : Type) (fn : σ → TNode → σ × Traversal) (s : σ) (roots : List TNode),
      (∀ s' n, (fn s' n).2 = Traversal.Continue) →
      (forEachNode fn s roots).2 = flatList roots) := by
  constructor
  · intro σ fn s roots
    have hb := forEachNode_eq_descendList fn roots s
    have hs := descendList_spec fn roots s
    rw [hb]
    exact ⟨hs.1, hs.2.2⟩
  · intro σ fn s roots hc
    have hb := forEachNode_eq_descendList fn roots s
    have hcv := descendList_continue fn hc roots s
    rw [hb]
    exact hcv.2

def c7Roots : List TNode :=
  [TNode.node { id := 30, parentIndex := 0, depth := 1, isCollapsed := false,
                cellHints := [4], maxCellHeight := 4, bs := ⟨0, 4⟩ }
     [freshNode 31],
   freshNode 32]

theorem c7_forEachNode_semantics_witness :
    (forEachNode (fun (s : Nat) (_ : TNode) => (s + 1, Traversal.Continue))
        0 c7Roots).2 = flatList c7Roots :=
  c7_forEachNode_semantics.2 Nat (fun s _ => (s + 1, Traversal.Continue))
    0 c7Roots (fun _ _ => rfl)

/-! ### C8: `calculateVirtualSize`, collapse and expand -/

/-- Captured locals of the visitor in `TreeView::calculateVirtualSize`:
`collapsed`, `collapsed_depth`, the root `parent_index` counter, and
`scroll_offset`. -/
structure CVS where
  collapsed : Bool
  collapsedDepth : Int
  rootCounter : Int
  offset : Nat

/-- The inner loop of `calculateVirtualSize` over a node's cells:
`max_cell_height` starts at `m_grid_line_width` and is raised to
`s.h + m_grid_line_width` for every taller cell. -/
def maxCellHeightOf (glw : Nat) : List Nat → Nat → Nat
  | [], mch => mch
  | h :: t, mch => maxCellHeightOf glw t (if h + glw > mch then h + glw else mch)

/-- The visitor body of `TreeView::calculateVirtualSize` (heights only; the
column-width bookkeeping in the source does not feed back into any
`bs_data` field): reassign `parent_index` for depth-1 nodes, leave a
collapsed range when depth comes back up, then either measure the node and
advance the offset, or store a zero-length entry at the frozen offset. -/
def calcVisit (glw : Nat) (st : CVS) (d : ND) : CVS × ND :=
  let d1 := if d.depth = 1 then { d with parentIndex := st.rootCounter } else d
  let rc := if d.depth = 1 then st.rootCounter + 1 else st.rootCounter
  let col := if d.depth ≤ st.collapsedDepth then false else st.collapsed
  let cd := if d.depth ≤ st.collapsedDepth then (-1 : Int) else st.collapsedDepth
  if col = false then
    let mch := maxCellHeightOf glw d.cellHints glw
    ({ collapsed := if d.isCollapsed then true else col,
       collapsedDepth := if d.isCollapsed then d.depth else cd,
       rootCounter := rc, offset := st.offset + mch },
     { d1 with maxCellHeight := mch, bs := ⟨st.offset, mch⟩ })
  else
    ({ collapsed := col, collapsedDepth := cd, rootCounter := rc,
       offset := st.offset },
     { d1 with bs := ⟨st.offset, 0⟩ })

mutual

/-- `calculateVirtualSize`'s sweep applied to one subtree (the visitor
always returns `Traversal::Continue`, so `forEachNode` is a full pre-order
pass). -/
def calcNode (glw : Nat) (st : CVS) : TNode → CVS × TNode
  | .node d cs =>
    let r := calcVisit glw st d
    let r2 := calcList glw r.1 cs
    (r2.1, .node r.2 r2.2)

/-- `calculateVirtualSize`'s sweep over a forest. -/
def calcList (glw : Nat) (st : CVS) : List TNode → CVS × List TNode
  | [] => (st, [])
  | c :: t =>
    let r1 := calcNode glw st c
    let r2 := calcList glw r1.1 t
    (r2.1, r1.2 :: r2.2)

end

/-- Mirrors `TreeView::calculateVirtualSize(dc)` restricted to its effect on
the model (the `m_virtual_size` totals and column widths are not read by
any claim). -/
def calculateVirtualSize (glw : Nat) (roots : List TNode) : List TNode :=
  (calcList glw { collapsed := false, collapsedDepth := -1, rootCounter := 0,
                  offset := 0 } roots).2

/-- Mirrors `TreeView::collapse(node)`: no-op on a null node (`none`) or a
node without children, otherwise sets `is_collapsed`.  (The notification
and relayout flags have no bearing on the model.) -/
def TreeView.collapse (roots : List TNode) (p : Option NPath) : List TNode :=
  match p with
  | none => roots
  | some p =>
    modifyAt p (fun m =>
      if m.children.isEmpty then m
      else TNode.node { m.data with isCollapsed := true } m.children) roots

/-- Mirrors `TreeView::expand(node)`. -/
def TreeView.expand (roots : List TNode) (p : Option NPath) : List TNode :=
  match p with
  | none => roots
  | some p =>
    modifyAt p (fun m =>
      if m.children.isEmpty then m
      else TNode.node { m.data with isCollapsed := false } m.children) roots

mutual

/-- The `(position, length)` pair of every node in pre-order. -/
def bsProjNode : TNode → List (Nat × Nat)
  | .node d cs => (d.bs.position, d.bs.length) :: bsProjList cs

/-- The `(position, length)` pairs of a forest in pre-order. -/
def bsProjList : List TNode → List (Nat × Nat)
  | [] => []
  | c :: t => bsProjNode c ++ bsProjList t

end

/-- The fields of a node that `calculateVirtualSize` reads: depth, collapse
flag and cell size hints (plus the shape of the tree). -/
inductive Skel where
  | node : Int → Bool → List Nat → List Skel → Skel
deriving Repr

mutual

def skelNode : TNode → Skel
  | .node d cs => .node d.depth d.isCollapsed d.cellHints (skelList cs)

def skelList : List TNode → List Skel
  | [] => []
  | c :: t => skelNode c :: skelList t

end

theorem listModify_oob {l : List α} {i : Nat} {f : α → α}
    (h : l.get? i = none) : listModify i f l = l := by
  induction l generalizing i with
  | nil => cases i <;> rfl
  | cons a t ih =>
    cases i with
    | zero => simp at h
    | succ j => simp only [listModify]; rw [ih (by simpa using h)]

theorem listModify_id {l : List α} {i : Nat} {f : α → α} {m : α}
    (h : l.get? i = some m) (hf : f m = m) : listModify i f l = l := by
  induction l generalizing i with
  | nil => cases i <;> rfl
  | cons a t ih =>
    cases i with
    | zero =>
      simp only [List.get?] at h
      cases h
      simp only [listModify, hf]
    | succ j =>
      simp only [List.get?] at h
      simp only [listModify]
      rw [ih h]

theorem listModify_comp (i : Nat) (f g : α → α) (l : List α) :
    listModify i f (listModify i g l) = listModify i (fun a => f (g a)) l := by
  induction l generalizing i with
  | nil => cases i <;> rfl
  | cons a t ih =>
    cases i with
    | zero => rfl
    | succ j => simp only [listModify]; rw [ih]

theorem listModify_congr {f g : α → α} (h : ∀ a, f a = g a) (i : Nat)
    (l : List α) : listModify i f l = listModify i g l := by
  have : f = g := funext h
  rw [this]

theorem modifyAt_comp (p : NPath) (f g : TNode → TNode) (l : List TNode) :
    modifyAt p f (modifyAt p g l) = modifyAt p (fun m => f (g m)) l := by
  induction p generalizing l with
  | nil => rfl
  | cons i rest ih =>
    cases rest with
    | nil => simp only [modifyAt]; rw [listModify_comp]
    | cons r2 rs2 =>
      show listModify i
          (fun n => TNode.node n.data (modifyAt (r2 :: rs2) f n.children))
          (listModify i
            (fun n => TNode.node n.data (modifyAt (r2 :: rs2) g n.children)) l) =
        listModify i
          (fun n => TNode.node n.data
            (modifyAt (r2 :: rs2) (fun m => f (g m)) n.children)) l
      rw [listModify_comp]
      refine listModify_congr (fun a => ?_) i l
      cases a with
      | node d cs =>
        simp only [TNode.data, TNode.children]
        rw [ih]

theorem modifyAt_id {p : NPath} {l : List TNode} {f : TNode → TNode}
    (h : ∀ m, getAt p l = some m → f m = m) : modifyAt p f l = l := by
  induction p generalizing l f with
  | nil => rfl
  | cons i rest ih =>
    cases rest with
    | nil =>
      simp only [modifyAt]
      cases hg : l.get? i with
      | none => exact listModify_oob hg
      | some m =>
        refine listModify_id hg (h m ?_)
        have hg2 : l[i]? = some m := by simpa using hg
        simp [getAt, hg2]
    | cons r2 rs2 =>
      show listModify i
          (fun n => TNode.node n.data (modifyAt (r2 :: rs2) f n.children)) l = l
      cases hg : l.get? i with
      | none => exact listModify_oob hg
      | some m =>
        refine listModify_id hg ?_
        cases m with
        | node d cs =>
          simp only [TNode.data, TNode.children]
          have hcs : modifyAt (r2 :: rs2) f cs = cs := by
            refine ih ?_
            intro m' hm'
            refine h m' ?_
            have hg2 : l[i]? = some (TNode.node d cs) := by simpa using hg
            simp only [getAt, TNode.children, hg, hg2] at hm' ⊢
            exact hm'
          rw [hcs]

theorem calcVisit_fields (glw : Nat) (st : CVS) (d : ND) :
    ((calcVisit glw st d).2.depth = d.depth) ∧
    ((calcVisit glw st d).2.isCollapsed = d.isCollapsed) ∧
    ((calcVisit glw st d).2.cellHints = d.cellHints) := by
  simp only [calcVisit]
  split_ifs <;> simp

theorem calcVisit_skel (glw : Nat) (st : CVS) {d d' : ND}
    (hdep : d.depth = d'.depth) (hcol : d.isCollapsed = d'.isCollapsed)
    (hh : d.cellHints = d'.cellHints) :
    (calcVisit glw st d).1 = (calcVisit glw st d').1 ∧
    (calcVisit glw st d).2.bs = (calcVisit glw st d').2.bs := by
  simp only [calcVisit, hdep, hcol, hh]
  split_ifs <;> simp

mutual

theorem skelNode_calc (glw : Nat) (st : CVS) (n : TNode) :
    skelNode (calcNode glw st n).2 = skelNode n := by
  cases n with
  | node d cs =>
    have hf := calcVisit_fields glw st d
    simp only [calcNode, skelNode, hf.1, hf.2.1, hf.2.2,
      skelList_calc glw (calcVisit glw st d).1 cs]

theorem skelList_calc (glw : Nat) (st : CVS) (l : List TNode) :
    skelList (calcList glw st l).2 = skelList l := by
  match l with
  | [] => rfl
  | c :: t =>
    simp only [calcList, skelList, skelNode_calc glw st c,
      skelList_calc glw (calcNode glw st c).1 t]

end

mutual

theorem calcNode_skel (glw : Nat) (st : CVS) {n n' : TNode}
    (h : skelNode n = skelNode n') :
    (calcNode glw st n).1 = (calcNode glw st n').1 ∧
    bsProjNode (calcNode glw st n).2 = bsProjNode (calcNode glw st n').2 := by
  cases n with
  | node d cs =>
    cases n' with
    | node e es =>
      simp only [skelNode, Skel.node.injEq] at h
      have hv := calcVisit_skel glw st h.1 h.2.1 h.2.2.1
      have hrec := calcList_skel glw (calcVisit glw st d).1 h.2.2.2
      rw [hv.1] at hrec
      constructor
      · simp only [calcNode]
        rw [hv.1, hrec.1]
      · simp only [calcNode, bsProjNode, hv.2, hv.1, hrec.2]

theorem calcList_skel (glw : Nat) (st : CVS) {l l' : List TNode}
    (h : skelList l = skelList l') :
    (calcList glw st l).1 = (calcList glw st l').1 ∧
    bsProjList (calcList glw st l).2 = bsProjList (calcList glw st l').2 := by
  match l, l' with
  | [], [] => exact ⟨rfl, rfl⟩
  | [], _ :: _ => simp [skelList] at h
  | _ :: _, [] => simp [skelList] at h
  | c :: t, c' :: t' =>
    simp only [skelList, List.cons.injEq] at h
    have hn := calcNode_skel glw st h.1
    have ht := calcList_skel glw (calcNode glw st c).1 h.2
    rw [hn.1] at ht
    constructor
    · simp only [calcList]
      rw [hn.1, ht.1]
    · simp only [calcList, bsProjList, hn.2, hn.1, ht.2]

end

/-- C8: collapsing a (currently expanded) node and then expanding it again,
followed by the `calculateVirtualSize` recompute, restores the `(position,
length)` pair of every node in the model to its pre-collapse value; the
cell size hints (`cellHints`) are part of the node and hence unchanged
between the two recomputes. -/
theorem c8_collapse_expand_roundtrip (glw : Nat) (t0 : List TNode)
    (p : Option NPath)
    (hp : ∀ q n, p = some q → getAt q (calculateVirtualSize glw t0) = some n →
      n.data.isCollapsed = false) :
    bsProjList (calculateVirtualSize glw
      (TreeView.expand (TreeView.collapse (calculateVirtualSize glw t0) p) p)) =
    bsProjList (calculateVirtualSize glw t0) := by
  have hrt : TreeView.expand (TreeView.collapse (calculateVirtualSize glw t0) p) p
      = calculateVirtualSize glw t0 := by
    cases p with
    | none => rfl
    | some q =>
      simp only [TreeView.expand, TreeView.collapse]
      rw [modifyAt_comp]
      refine modifyAt_id ?_
      intro m hm
      have hflag := hp q m rfl hm
      cases m with
      | node d cs =>
        cases cs with
        | nil => simp [TNode.children]
        | cons b bb =>
          cases d with
          | mk i pi dep col hints mch bs =>
            simp only [TNode.data] at hflag
            subst hflag
            simp [TNode.children, TNode.data]
  rw [hrt]
  simp only [calculateVirtualSize]
  exact (calcList_skel glw
    { collapsed := false, collapsedDepth := -1, rootCounter := 0, offset := 0 }
    (skelList_calc glw
      { collapsed := false, collapsedDepth := -1, rootCounter := 0, offset := 0 }
      t0)).2

def c8Tree : List TNode :=
  [TNode.node { id := 40, parentIndex := 0, depth := 1, isCollapsed := false,
                cellHints := [6], maxCellHeight := 0, bs := ⟨0, 0⟩ }
     [freshNode 41],
   freshNode 42]

theorem c8_collapse_expand_roundtrip_witness :
    bsProjList (calculateVirtualSize 1
      (TreeView.expand (TreeView.collapse (calculateVirtualSize 1 c8Tree)
        (some [0])) (some [0]))) =
    bsProjList (calculateVirtualSize 1 c8Tree) :=
  c8_collapse_expand_roundtrip 1 c8Tree (some [0]) (by
    intro q n hq hn
    cases hq
    have h3 : Option.map (fun m => m.data.isCollapsed)
        (getAt [0] (calculateVirtualSize 1 c8Tree)) = some false := rfl
    rw [hn] at h3
    simpa using h3)

/-! ### C5: `Column::sort` -/

/-- Mirrors `enum class Sort` (named `SortOrder` since `Sort` is a reserved
word in Lean). -/
inductive SortOrder where
  | NoSort
  | Ascending
  | Descending
deriving Repr, DecidableEq

/-- One insertion step of the `std::sort` model, counting comparator
invocations. -/
def insertCnt (le : α → α → Bool) (a : α) : List α → List α × Nat
  | [] => ([a], 0)
  | b :: t =>
    if le a b then (a :: b :: t, 1)
    else
      let r := insertCnt le a t
      (b :: r.1, r.2 + 1)

/-- Model of `std::sort`: insertion sort with a comparator-invocation
count.  `std::sort` promises only a permutation sorted by the comparator
and an unspecified number of comparator calls; any comparison sort must
invoke the comparator at least once on a two-element range (libstdc++'s
`std::sort` performs exactly one call there), which is what the
counterexample uses. -/
def isortCnt (le : α → α → Bool) : List α → List α × Nat
  | [] => ([], 0)
  | a :: t =>
    let r := isortCnt le t
    let r2 := insertCnt le a r.1
    (r2.1, r.2 + r2.2)

/-- The sibling-group sort of `Column::sort`: in member state `Ascending`
the source sorts through reverse iterators (`std::sort(v.rbegin(),
v.rend(), fn)`, i.e. the reversed sequence is sorted and written back
reversed); in every other state it sorts forward. -/
def sortSiblings (ascendingState : Bool) (le : α → α → Bool) (v : List α) :
    List α × Nat :=
  if ascendingState then
    let r := isortCnt le v.reverse
    (r.1.reverse, r.2)
  else isortCnt le v

mutual

/-- Number of nodes in a subtree (termination measure for the sort sweep:
sorting permutes a sibling group, so the node count is invariant while
`sizeOf` is not, because `parent_index` reassignment changes it). -/
def ndCountNode : TNode → Nat
  | .node _ cs => 1 + ndCountList cs

def ndCountList : List TNode → Nat
  | [] => 0
  | c :: t => ndCountNode c + ndCountList t

end

theorem ndCountNode_pos (n : TNode) : 1 ≤ ndCountNode n := by
  cases n with
  | node d cs => simp [ndCountNode]

theorem ndCountList_append (u v : List TNode) :
    ndCountList (u ++ v) = ndCountList u + ndCountList v := by
  induction u with
  | nil => simp [ndCountList]
  | cons c t ih =>
    show ndCountList (c :: (t ++ v)) = _
    simp only [ndCountList, ih]
    omega

theorem ndCountList_reverse (v : List TNode) :
    ndCountList v.reverse = ndCountList v := by
  induction v with
  | nil => rfl
  | cons c t ih =>
    simp only [List.reverse_cons, ndCountList_append, ndCountList, ih]
    simp [ndCountList]
    omega

theorem ndCountList_insertCnt (le : TNode → TNode → Bool) (a : TNode)
    (u : List TNode) :
    ndCountList (insertCnt le a u).1 = ndCountNode a + ndCountList u := by
  induction u with
  | nil => simp [insertCnt, ndCountList]
  | cons b t ih =>
    simp only [insertCnt]
    split
    · simp [ndCountList]
    · simp only [ndCountList, ih]; omega

theorem ndCountList_isortCnt (le : TNode → TNode → Bool) (v : List TNode) :
    ndCountList (isortCnt le v).1 = ndCountList v := by
  induction v with
  | nil => rfl
  | cons a t ih =>
    simp only [isortCnt, ndCountList_insertCnt, ih, ndCountList]

theorem ndCountList_sortSiblings (b : Bool) (le : TNode → TNode → Bool)
    (v : List TNode) : ndCountList (sortSiblings b le v).1 = ndCountList v := by
  simp only [sortSiblings]
  split
  · rw [ndCountList_reverse, ndCountList_isortCnt, ndCountList_reverse]
  · rw [ndCountList_isortCnt]

theorem ndCountList_assignPIFrom (k : Nat) :
    ∀ (cur : Nat) (l : List TNode),
    ndCountList (assignPIFrom k cur l) = ndCountList l := by
  intro cur l
  induction l generalizing cur with
  | nil => rfl
  | cons c t ih =>
    cases c with
    | node d cs =>
      simp only [assignPIFrom, ndCountList]
      split <;> simp [ndCountNode, ih]

mutual

/-- The `forEachNode` visitor of `Column::sort` applied at one node and
recursively below it: a childless node returns `Traversal::Next` (nothing
to do); otherwise the node's child vector is sorted, the children's
`parent_index` fields are reassigned `0..k-1`, and the traversal descends
into the (freshly sorted) children. -/
def sortTreeNode (ascendingState : Bool) (le : TNode → TNode → Bool) :
    TNode → TNode × Nat
  | .node d [] => (.node d [], 0)
  | .node d (c0 :: cs0) =>
    let r := sortSiblings ascendingState le (c0 :: cs0)
    let cs2 := assignPIFrom 0 0 r.1
    let r2 := sortTreeList ascendingState le cs2
    (.node d r2.1, r.2 + r2.2)
termination_by n => 2 * ndCountNode n
decreasing_by
  · rw [ndCountList_assignPIFrom, ndCountList_sortSiblings]
    simp only [ndCountNode, ndCountList]
    omega

def sortTreeList (ascendingState : Bool) (le : TNode → TNode → Bool) :
    List TNode → List TNode × Nat
  | [] => ([], 0)
  | c :: t =>
    let r1 := sortTreeNode ascendingState le c
    let r2 := sortTreeList ascendingState le t
    (r1.1 :: r2.1, r1.2 + r2.2)
termination_by l => 2 * ndCountList l + 1
decreasing_by
  · have h1 := ndCountNode_pos c
    simp only [ndCountList]
    omega
  · have h1 := ndCountNode_pos c
    simp only [ndCountList]
    omega

end

/-- Mirrors `Column::sort(sort)` restricted to its effect on the model:
`param` is the argument, `msort` the member `m_sort` at call time (the
click handler toggles `m_sort` BEFORE calling `sort(m_sort)`).  With
`param = NoSort` only the icon changes; otherwise the roots vector is
sorted (its `parent_index` fields are NOT reassigned here — the source
leaves that to `calculateVirtualSize`) and the visitor sorts every child
group.  The second component counts comparator invocations. -/
def Column.sortModel (param msort : SortOrder) (le : TNode → TNode → Bool)
    (roots : List TNode) : List TNode × Nat :=
  match param with
  | .NoSort => (roots, 0)
  | _ =>
    let asc := msort = SortOrder.Ascending
    let r := sortSiblings asc le roots
    let r2 := sortTreeList asc le r.1
    (r2.1, r.2 + r2.2)

/-- The id-labelled shape of a tree: what "the order of every sibling
group" means, independent of the mutable per-node fields. -/
inductive IdT where
  | node : Nat → List IdT → IdT
deriving Repr

mutual

def idProjNode : TNode → IdT
  | .node d cs => .node d.id (idProjList cs)

def idProjList : List TNode → List IdT
  | [] => []
  | c :: t => idProjNode c :: idProjList t

end

mutual

/-- Reverse every sibling group of an id-tree. -/
def revIdT : IdT → IdT
  | .node i cs => .node i (revIdMap cs).reverse

def revIdMap : List IdT → List IdT
  | [] => []
  | c :: t => revIdT c :: revIdMap t

end

/-- Strictly descending by `le` (every later element is `le`-below every
earlier one): the sibling order that the Ascending member state leaves
behind. -/
def pairwiseRevB (le : α → α → Bool) : List α → Bool
  | [] => true
  | a :: t => t.all (fun b => le b a) && pairwiseRevB le t

mutual

/-- Every sibling group below this node (its own children and recursively)
is strictly descending by `le`. -/
def groupsDescB (le : TNode → TNode → Bool) : TNode → Bool
  | .node _ cs => pairwiseRevB le cs && groupsDescListB le cs

def groupsDescListB (le : TNode → TNode → Bool) : List TNode → Bool
  | [] => true
  | c :: t => groupsDescB le c && groupsDescListB le t

end

theorem insertCnt_last (le : α → α → Bool) (a : α)
    (hasym : ∀ x y, le x y = true → le y x = false) :
    ∀ (u : List α), (∀ b ∈ u, le b a = true) →
    (insertCnt le a u).1 = u ++ [a] := by
  intro u
  induction u with
  | nil => intro _; rfl
  | cons b t ih =>
    intro h
    have hba : le b a = true := h b (by simp)
    have hab : le a b = false := hasym b a hba
    simp only [insertCnt, hab, Bool.false_eq_true, if_false]
    rw [ih (fun x hx => h x (by simp [hx]))]
    rfl

theorem insertCnt_len (le : α → α → Bool) (a : α) :
    ∀ (u : List α), (insertCnt le a u).1.length = u.length + 1 := by
  intro u
  induction u with
  | nil => rfl
  | cons b t ih =>
    simp only [insertCnt]
    split
    · simp
    · simp only [List.length_cons, ih]

theorem insertCnt_pos (le : α → α → Bool) (a b : α) (t : List α) :
    1 ≤ (insertCnt le a (b :: t)).2 := by
  simp only [insertCnt]
  split
  · omega
  · omega

theorem isortCnt_len (le : α → α → Bool) :
    ∀ (v : List α), (isortCnt le v).1.length = v.length := by
  intro v
  induction v with
  | nil => rfl
  | cons a t ih => simp only [isortCnt, insertCnt_len, ih, List.length_cons]

theorem isortCnt_rev (le : α → α → Bool)
    (hasym : ∀ x y, le x y = true → le y x = false) :
    ∀ (v : List α), pairwiseRevB le v = true →
    (isortCnt le v).1 = v.reverse := by
  intro v
  induction v with
  | nil => intro _; rfl
  | cons a t ih =>
    intro h
    simp only [pairwiseRevB, Bool.and_eq_true, List.all_eq_true] at h
    simp only [isortCnt]
    rw [ih h.2, insertCnt_last le a hasym t.reverse
      (fun b hb => h.1 b (List.mem_reverse.mp hb))]
    simp

theorem isortCnt_pos (le : α → α → Bool) (a b : α) (t : List α) :
    1 ≤ (isortCnt le (a :: b :: t)).2 := by
  show 1 ≤ (isortCnt le (b :: t)).2 + (insertCnt le a (isortCnt le (b :: t)).1).2
  have hl : (isortCnt le (b :: t)).1.length = t.length + 1 := by
    rw [isortCnt_len]; rfl
  cases hc : (isortCnt le (b :: t)).1 with
  | nil => rw [hc] at hl; simp at hl
  | cons x xs =>
    have hp := insertCnt_pos le a x xs
    omega

theorem idProjList_append (u v : List TNode) :
    idProjList (u ++ v) = idProjList u ++ idProjList v := by
  induction u with
  | nil => rfl
  | cons c t ih =>
    show idProjList (c :: (t ++ v)) = _
    simp only [idProjList, ih, List.cons_append]

theorem idProjList_reverse (v : List TNode) :
    idProjList v.reverse = (idProjList v).reverse := by
  induction v with
  | nil => rfl
  | cons c t ih =>
    simp only [List.reverse_cons, idProjList_append, idProjList, ih]

theorem idProjList_assignPIFrom (k : Nat) :
    ∀ (cur : Nat) (l : List TNode),
    idProjList (assignPIFrom k cur l) = idProjList l := by
  intro cur l
  induction l generalizing cur with
  | nil => rfl
  | cons c t ih =>
    cases c with
    | node d cs =>
      simp only [assignPIFrom, idProjList]
      split <;> simp [idProjNode, ih]

theorem revIdMap_append (u v : List IdT) :
    revIdMap (u ++ v) = revIdMap u ++ revIdMap v := by
  induction u with
  | nil => rfl
  | cons c t ih =>
    show revIdMap (c :: (t ++ v)) = _
    simp only [revIdMap, ih, List.cons_append]

theorem revIdMap_reverse (u : List IdT) :
    revIdMap u.reverse = (revIdMap u).reverse := by
  induction u with
  | nil => rfl
  | cons c t ih =>
    simp only [List.reverse_cons, revIdMap_append, revIdMap, ih]

theorem groupsDescListB_append (le : TNode → TNode → Bool) (u v : List TNode) :
    groupsDescListB le (u ++ v) =
      (groupsDescListB le u && groupsDescListB le v) := by
  induction u with
  | nil => simp [groupsDescListB]
  | cons c t ih =>
    show groupsDescListB le (c :: (t ++ v)) = _
    simp only [groupsDescListB, ih, Bool.and_assoc]

theorem groupsDescListB_reverse (le : TNode → TNode → Bool) (v : List TNode) :
    groupsDescListB le v.reverse = groupsDescListB le v := by
  induction v with
  | nil => rfl
  | cons c t ih =>
    simp only [List.reverse_cons, groupsDescListB_append, groupsDescListB, ih]
    simp [Bool.and_comm]

theorem groupsDescListB_assignPIFrom (le : TNode → TNode → Bool) (k : Nat) :
    ∀ (cur : Nat) (l : List TNode),
    groupsDescListB le (assignPIFrom k cur l) = groupsDescListB le l := by
  intro cur l
  induction l generalizing cur with
  | nil => rfl
  | cons c t ih =>
    cases c with
    | node d cs =>
      simp only [assignPIFrom, groupsDescListB]
      split <;> simp [groupsDescB, ih]

mutual

theorem sortTreeNode_rev (le : TNode → TNode → Bool)
    (hasym : ∀ x y, le x y = true → le y x = false) (n : TNode)
    (h : groupsDescB le n = true) :
    idProjNode (sortTreeNode false le n).1 = revIdT (idProjNode n) := by
  match n with
  | .node d [] => simp [sortTreeNode, idProjNode, revIdT, idProjList, revIdMap]
  | .node d (c0 :: cs0) =>
      simp only [groupsDescB, Bool.and_eq_true] at h
      have hs : (sortSiblings false le (c0 :: cs0)).1 = (c0 :: cs0).reverse := by
        simp only [sortSiblings, Bool.false_eq_true, if_false]
        exact isortCnt_rev le hasym _ h.1
      have hcs2 : groupsDescListB le
          (assignPIFrom 0 0 (sortSiblings false le (c0 :: cs0)).1) = true := by
        rw [groupsDescListB_assignPIFrom, hs, groupsDescListB_reverse]
        exact h.2
      have ih := sortTreeList_rev le hasym
        (assignPIFrom 0 0 (sortSiblings false le (c0 :: cs0)).1) hcs2
      rw [hs] at ih
      simp only [sortTreeNode, hs, idProjNode, ih, idProjList_assignPIFrom,
        idProjList_reverse, revIdMap_reverse, revIdT]
termination_by 2 * ndCountNode n
decreasing_by
  · rw [ndCountList_assignPIFrom, ndCountList_sortSiblings]
    simp only [ndCountNode, ndCountList]
    omega

theorem sortTreeList_rev (le : TNode → TNode → Bool)
    (hasym : ∀ x y, le x y = true → le y x = false) (l : List TNode)
    (h : groupsDescListB le l = true) :
    idProjList (sortTreeList false le l).1 = revIdMap (idProjList l) := by
  match l with
  | [] => simp [sortTreeList, idProjList, revIdMap]
  | c :: t =>
    simp only [groupsDescListB, Bool.and_eq_true] at h
    have ihn := sortTreeNode_rev le hasym c h.1
    have iht := sortTreeList_rev le hasym t h.2
    simp only [sortTreeList, idProjList, revIdMap, ihn, iht]
termination_by 2 * ndCountList l + 1
decreasing_by
  · have h1 := ndCountNode_pos c
    simp only [ndCountList]
    omega
  · have h1 := ndCountNode_pos c
    simp only [ndCountList]
    omega

end

/-- C5 counterexample: with the model in Ascending state (physical sibling
order strictly descending by the comparator), toggling to Descending runs
`std::sort` over each group again — the comparator IS invoked (here: once,
for a two-root model), falsifying "without invoking the comparator
again". -/
theorem c5_comparator_reinvoked_on_toggle :
    (Column.sortModel SortOrder.Descending SortOrder.Descending
      (fun a b => a.data.id < b.data.id) [freshNode 51, freshNode 50]).2 ≠ 0 := by
  simp only [Column.sortModel]
  have h1 : (sortSiblings (decide (SortOrder.Descending = SortOrder.Ascending))
      (fun a b => decide (a.data.id < b.data.id))
      [freshNode 51, freshNode 50]).2 = 1 := by decide
  omega

/-- C5 (amended): for a model currently in the Ascending member state (its
sibling groups strictly descending under the asymmetric comparator `le`,
which is the order the Ascending state leaves), the Descending toggle —
which re-sorts every sibling group with the SAME comparator, always passed
in the same orientation — yields exactly the reverse order of every
sibling group; the comparator is invoked again (at least once when the
root group has two or more entries). -/
theorem c5_descending_toggle_reverses (le : TNode → TNode → Bool)
    (roots : List TNode)
    (hasym : ∀ x y, le x y = true → le y x = false)
    (hdesc : pairwiseRevB le roots = true)
    (hall : groupsDescListB le roots = true) :
    idProjList (Column.sortModel SortOrder.Descending SortOrder.Descending
      le roots).1 = (revIdMap (idProjList roots)).reverse ∧
    (∀ a b t, roots = a :: b :: t →
      1 ≤ (Column.sortModel SortOrder.Descending SortOrder.Descending
        le roots).2) := by
  have hs : (sortSiblings false le roots).1 = roots.reverse := by
    simp only [sortSiblings, Bool.false_eq_true, if_false]
    exact isortCnt_rev le hasym _ hdesc
  have h2 : groupsDescListB le roots.reverse = true := by
    rw [groupsDescListB_reverse]; exact hall
  have ih := sortTreeList_rev le hasym roots.reverse h2
  constructor
  · simp only [Column.sortModel, decide_eq_false, hs]
    rw [show (decide (SortOrder.Descending = SortOrder.Ascending)) = false
      from rfl, hs, ih, idProjList_reverse, revIdMap_reverse]
  · intro a b t hroots
    subst hroots
    simp only [Column.sortModel]
    have hp : 1 ≤ (sortSiblings
        (decide (SortOrder.Descending = SortOrder.Ascending)) le
        (a :: b :: t)).2 := by
      rw [show (decide (SortOrder.Descending = SortOrder.Ascending)) = false
        from rfl]
      simp only [sortSiblings, Bool.false_eq_true, if_false]
      exact isortCnt_pos le a b t
    omega

theorem c5_descending_toggle_reverses_witness :
    idProjList (Column.sortModel SortOrder.Descending SortOrder.Descending
      (fun a b => a.data.id < b.data.id) [freshNode 51, freshNode 50]).1 =
      (revIdMap (idProjList [freshNode 51, freshNode 50])).reverse ∧
    1 ≤ (Column.sortModel SortOrder.Descending SortOrder.Descending
      (fun a b => a.data.id < b.data.id) [freshNode 51, freshNode 50]).2 :=
  have h := c5_descending_toggle_reverses
    (fun a b => a.data.id < b.data.id) [freshNode 51, freshNode 50]
    (by intro x y hxy; simp at hxy ⊢; omega)
    (by decide) (by decide)
  ⟨h.1, h.2 (freshNode 51) (freshNode 50) [] rfl⟩

/-! ### C6 / C9: transient viewport state -/

/-- Mirrors `TreeView::DropAction::Type`. -/
inductive DropType where
  | Root
  | Child
  | Above
  | Below
deriving Repr, DecidableEq

/-- The transient state of `TreeView` the claims are about.  Node
references (`m_hovered`, `m_cursor`, the `m_focused` list, `m_event_node`,
`m_tree_collapser`, `drop_action.node`) are pointers in the source and are
modelled as node ids; `columnSorts` is the per-column `m_sort` and
`lastSort` the index of `m_last_sort`'s column. -/
structure ViewState where
  model : List TNode
  hovered : Option Nat
  cursor : Option Nat
  focused : List Nat
  eventNode : Option Nat
  treeCollapser : Option Nat
  lastSort : Option Nat
  columnSorts : List SortOrder
  dropActionNode : Option Nat
  dropActionType : DropType
  virtualSizeChanged : Bool
  autoSizeColumns : Bool
deriving Repr

/-- Mirrors `TreeView::setModel(model)`: replaces the model, sets the two
relayout flags, nulls `m_hovered`, `m_cursor`, clears `m_focused`, nulls
`m_event_node` and `m_tree_collapser`, and if `m_last_sort` is set calls
`m_last_sort->sort(Sort::None)` (that column's `m_sort` becomes `None`)
and nulls it.  `drop_action` does not appear in the source function. -/
def TreeView.setModel (vs : ViewState) (m : List TNode) : ViewState :=
  { model := m,
    virtualSizeChanged := true,
    autoSizeColumns := true,
    hovered := none,
    cursor := none,
    focused := [],
    eventNode := none,
    treeCollapser := none,
    columnSorts :=
      match vs.lastSort with
      | some i => listSet i SortOrder.NoSort vs.columnSorts
      | none => vs.columnSorts,
    lastSort := none,
    dropActionNode := vs.dropActionNode,
    dropActionType := vs.dropActionType }

/-- Calling `m_model->remove(node)` while the `TreeView` holds references:
`Tree::remove` is a pure model operation — the source gives the `Tree` no
access to the viewport fields, so they are carried over unchanged. -/
def viewRemove (vs : ViewState) (p : Option NPath) : ViewState × Option TNode :=
  let r := Tree.remove vs.model p
  ({ vs with model := r.1 }, r.2)

def c6State : ViewState :=
  { model := [(freshNode 0).setPI 0],
    hovered := some 0, cursor := some 0, focused := [0],
    eventNode := some 0, treeCollapser := some 0,
    lastSort := none, columnSorts := [],
    dropActionNode := none, dropActionType := DropType.Root,
    virtualSizeChanged := false, autoSizeColumns := false }

/-- C6 fails on the code: `Tree::remove` never touches the viewport's
hovered/cursor/selection fields (it cannot — the model has no pointer to
the view, and `TreeView` has no removal wrapper), so after removing the
hovered, selected cursor node the viewport still references the detached
node: a dangling reference, contrary to the claim that the removal path
clears those fields. -/
theorem c6_remove_leaves_dangling_refs :
    (∀ (vs : ViewState) (p : Option NPath),
      (viewRemove vs p).1.hovered = vs.hovered ∧
      (viewRemove vs p).1.cursor = vs.cursor ∧
      (viewRemove vs p).1.focused = vs.focused) ∧
    (viewRemove c6State (some [0])).1.hovered = some 0 ∧
    (viewRemove c6State (some [0])).1.cursor = some 0 ∧
    (viewRemove c6State (some [0])).1.focused = [0] ∧
    (viewRemove c6State (some [0])).1.model = [] :=
  ⟨fun _ _ => ⟨rfl, rfl, rfl⟩, rfl, rfl, rfl, rfl⟩

def c9State : ViewState :=
  { model := [(freshNode 1).setPI 0],
    hovered := some 1, cursor := some 1, focused := [1],
    eventNode := some 1, treeCollapser := some 1,
    lastSort := some 0, columnSorts := [SortOrder.Ascending],
    dropActionNode := some 7, dropActionType := DropType.Child,
    virtualSizeChanged := false, autoSizeColumns := false }

/-- C9 counterexample: `setModel` does not touch `drop_action` — after the
call the pending drag-drop target descriptor still references node 7 with
relation Child instead of being cleared/reset, so "the pending drag-drop
target descriptor [is] cleared" is false as stated. -/
theorem c9_drop_target_survives_setModel :
    (TreeView.setModel c9State []).dropActionNode = some 7 ∧
    (TreeView.setModel c9State []).dropActionType = DropType.Child ∧
    (TreeView.setModel c9State []).dropActionNode ≠ none :=
  ⟨rfl, rfl, by decide⟩

/-- C9 (amended): `setModel` replaces the model and resets the hovered
reference, keyboard cursor, selection set, event node, tree-collapser
highlight and the active sort column (nulling `m_last_sort` and setting
that column's sort state to None) — but it leaves the pending drag-drop
target descriptor (`drop_action`) unchanged. -/
theorem c9_setModel_resets (vs : ViewState) (m : List TNode) :
    (TreeView.setModel vs m).model = m ∧
    (TreeView.setModel vs m).hovered = none ∧
    (TreeView.setModel vs m).cursor = none ∧
    (TreeView.setModel vs m).focused = [] ∧
    (TreeView.setModel vs m).eventNode = none ∧
    (TreeView.setModel vs m).treeCollapser = none ∧
    (TreeView.setModel vs m).lastSort = none ∧
    (∀ i, vs.lastSort = some i →
      (TreeView.setModel vs m).columnSorts =
        listSet i SortOrder.NoSort vs.columnSorts) ∧
    (TreeView.setModel vs m).dropActionNode = vs.dropActionNode ∧
    (TreeView.setModel vs m).dropActionType = vs.dropActionType := by
  refine ⟨rfl, rfl, rfl, rfl, rfl, rfl, rfl, ?_, rfl, rfl⟩
  intro i h
  simp [TreeView.setModel, h]

theorem c9_setModel_resets_witness :
    (TreeView.setModel c9State []).hovered = none ∧
    (TreeView.setModel c9State []).columnSorts =
      listSet 0 SortOrder.NoSort c9State.columnSorts :=
  ⟨(c9_setModel_resets c9State []).2.1,
   (c9_setModel_resets c9State []).2.2.2.2.2.2.2.1 0 rfl⟩

/-! ### C4: `TreeView::binarySearch` -/

/-- 2^64: the u64 modulus. -/
def U64 : Nat := 2 ^ 64

/-- Mirrors `BinarySearchResult<TreeNode<T>*>`. -/
structure BSRes where
  idx : Nat
  val : Option TNode
deriving Repr

/-- The `while (lower <= upper)` loop of `TreeView::binarySearch`, with
explicit fuel (the C++ loop is unbounded; the proofs show the fuel is
never exhausted under a well-formed index).  All index arithmetic is u64:
`upper = mid - 1` wraps, modelled as `(mid + (2^64 - 1)) % 2^64`, and
`mid` is `((lower + upper) mod 2^64) / 2`.  An out-of-range `roots[mid]`
— undefined behaviour in C++ — is modelled as `none`; the inner
`roots[mid + 1]` read is guarded by `roots.size() - 1 > mid` exactly as in
the source and therefore always in bounds (its `none` arm is
unreachable). -/
def bsLoop (roots : List TNode) (target : Nat) :
    Nat → Nat → Nat → Nat × BSD → Option (Nat × BSD)
  | 0, _, _, _ => none
  | fuel + 1, lower, upper, mp =>
    if lower ≤ upper then
      match roots.get? (((lower + upper) % U64) / 2) with
      | none => none
      | some r =>
        if target < r.data.bs.position then
          bsLoop roots target fuel lower
            ((((lower + upper) % U64) / 2 + (U64 - 1)) % U64)
            (((lower + upper) % U64) / 2, r.data.bs)
        else if target >
            (if roots.length - 1 > ((lower + upper) % U64) / 2 then
              (match roots.get? (((lower + upper) % U64) / 2 + 1) with
               | some r2 => r2.data.bs.position
               | none => 0)
             else r.data.bs.position + r.data.bs.length) then
          bsLoop roots target fuel (((lower + upper) % U64) / 2 + 1) upper
            (((lower + upper) % U64) / 2, r.data.bs)
        else some (((lower + upper) % U64) / 2, r.data.bs)
    else some mp

/-- The body of `TreeView::binarySearch(roots, target)`: empty-roots guard,
the loop, the inclusive containment test `point.position <= target &&
point.position + point.length >= target`, and the recursion into
`roots[mid]->children`.  The recursion is modelled with explicit
structural fuel; `binarySearch` below supplies one more than the node
count of the forest, and the proofs show this is never exhausted (every
recursive call descends into the children of a node of the current
forest, so the node count strictly decreases). -/
def bsGo (target : Nat) : Nat → List TNode → BSRes
  | 0, _ => { idx := 0, val := none }
  | fuel + 1, roots =>
    if roots.length = 0 then { idx := 0, val := none }
    else
      match bsLoop roots target U64 0 (roots.length - 1) (0, ⟨0, 0⟩) with
      | none => { idx := 0, val := none }
      | some (mid, point) =>
        if point.position ≤ target ∧ point.position + point.length ≥ target then
          { idx := mid, val := roots.get? mid }
        else
          match roots.get? mid with
          | some r =>
            if r.children.length ≠ 0 then bsGo target fuel r.children
            else { idx := 0, val := none }
          | none => { idx := 0, val := none }

/-- Mirrors `TreeView::binarySearch(roots, target)`. -/
def binarySearch (roots : List TNode) (target : Nat) : BSRes :=
  bsGo target (ndCountList roots + 1) roots

mutual

/-- Well-formed position index with base offset `p`: the node's stored
position is `p`, its children chain from `p + length`, and each following
sibling starts where the previous subtree's extent ends — exactly the
layout `Tree::_updateBSData` (and `calculateVirtualSize`) writes. -/
def wfNodeB (p : Nat) : TNode → Bool
  | .node d cs => (d.bs.position == p) && wfListB (p + d.bs.length) cs

/-- Well-formed position index for a sibling vector starting at `p`. -/
def wfListB (p : Nat) : List TNode → Bool
  | [] => true
  | c :: t => wfNodeB p c && wfListB (p + lenSumNode c) t

end

mutual

/-- Every sibling vector in the subtree is shorter than `2^63` entries
(true of any real `std::vector` of pointers; keeps the u64 index
arithmetic of the loop below overflow). -/
def sizeOkNode : TNode → Bool
  | .node _ cs => (decide (cs.length < 2 ^ 63)) && sizeOkList cs

def sizeOkList : List TNode → Bool
  | [] => true
  | c :: t => sizeOkNode c && sizeOkList t

end

/-- A node for binary-search scenarios: id `i`, stored index entry
`(pos, len)`, children `cs`. -/
def bsCNode (i pos len : Nat) (cs : List TNode) : TNode :=
  .node { id := i, parentIndex := 0, depth := 1, isCollapsed := false,
          cellHints := [len], maxCellHeight := len, bs := ⟨pos, len⟩ } cs

/-- One root `F` spanning `[0,10)` with a single childless child `X`
spanning `[10,15)`: a well-formed position index. -/
def c4Roots : List TNode := [bsCNode 1 0 10 [bsCNode 2 10 5 []]]

/-- C4, counterexample: `c4Roots` carries a well-formed position index and
the childless node `X` (id 2) satisfies `10 ∈ [position, position+length)
= [10, 15)`, yet `binarySearch` at target 10 returns the parent `F`
(id 1), not `X`: the inclusive containment test `position + length >=
target` accepts the parent whose span ends exactly at the target. -/
theorem c4_left_endpoint_misses_leaf :
    wfListB 0 c4Roots = true ∧
    (∃ X, X ∈ flatList c4Roots ∧ X.children = [] ∧ X.data.id = 2 ∧
      X.data.bs.position ≤ 10 ∧ 10 < X.data.bs.position + X.data.bs.length) ∧
    ((binarySearch c4Roots 10).val.map (fun r => r.data.id)) = some 1 := by
  refine ⟨rfl, ⟨bsCNode 2 10 5 [], ?_, rfl, rfl, by decide, by decide⟩, rfl⟩
  simp [c4Roots, flatList, flatNode, bsCNode]

theorem wfListB_cons {p : Nat} {c : TNode} {t : List TNode}
    (h : wfListB p (c :: t) = true) :
    wfNodeB p c = true ∧ wfListB (p + lenSumNode c) t = true := by
  simp only [wfListB, Bool.and_eq_true] at h
  exact h

theorem wfNodeB_pos {p : Nat} {n : TNode} (h : wfNodeB p n = true) :
    n.data.bs.position = p := by
  cases n with
  | node d cs =>
    simp only [wfNodeB, Bool.and_eq_true, beq_iff_eq] at h
    exact h.1

theorem wfNodeB_children {p : Nat} {n : TNode} (h : wfNodeB p n = true) :
    wfListB (p + n.data.bs.length) n.children = true := by
  cases n with
  | node d cs =>
    simp only [wfNodeB, Bool.and_eq_true] at h
    exact h.2

theorem wfListB_get {l : List TNode} :
    ∀ {p : Nat}, wfListB p l = true → ∀ i r, l.get? i = some r →
    wfNodeB r.data.bs.position r = true ∧
    p ≤ r.data.bs.position ∧
    r.data.bs.position + lenSumNode r ≤ p + lenSumList l := by
  induction l with
  | nil => intro p _ i r hr; simp at hr
  | cons c t ih =>
    intro p h i r hr
    have hc := wfListB_cons h
    cases i with
    | zero =>
      simp only [List.get?] at hr
      cases hr
      have hp := wfNodeB_pos hc.1
      refine ⟨by rw [hp]; exact hc.1, by omega, ?_⟩
      simp only [lenSumList]
      omega
    | succ j =>
      simp only [List.get?] at hr
      have h2 := ih hc.2 j r hr
      refine ⟨h2.1, by omega, ?_⟩
      simp only [lenSumList]
      omega

theorem wfListB_succ {l : List TNode} :
    ∀ {p : Nat}, wfListB p l = true →
    ∀ i r r', l.get? i = some r → l.get? (i + 1) = some r' →
    r'.data.bs.position = r.data.bs.position + lenSumNode r := by
  induction l with
  | nil => intro p _ i r r' hr _; simp at hr
  | cons c t ih =>
    intro p h i r r' hr hr'
    have hc := wfListB_cons h
    cases i with
    | zero =>
      simp only [List.get?] at hr hr'
      cases hr
      cases t with
      | nil => simp at hr'
      | cons d t' =>
        simp only [List.get?] at hr'
        cases hr'
        have h1 := wfNodeB_pos hc.1
        have h2 := wfNodeB_pos (wfListB_cons hc.2).1
        rw [h1, h2]
    | succ j =>
      simp only [List.get?] at hr hr'
      exact ih hc.2 j r r' hr hr'

theorem wfListB_last {l : List TNode} :
    ∀ {p : Nat}, wfListB p l = true → ∀ r, l.get? (l.length - 1) = some r →
    r.data.bs.position + lenSumNode r = p + lenSumList l := by
  induction l with
  | nil => intro p _ r hr; simp at hr
  | cons c t ih =>
    intro p h r hr
    have hc := wfListB_cons h
    cases t with
    | nil =>
      simp only [List.length_cons, List.length_nil, List.get?] at hr
      cases hr
      have h1 := wfNodeB_pos hc.1
      rw [h1]
      simp [lenSumList]
    | cons d t' =>
      have hlen : (c :: d :: t').length - 1 = ((d :: t').length - 1) + 1 := by
        simp [List.length_cons]
      rw [hlen] at hr
      simp only [List.get?] at hr
      have h2 := ih hc.2 r hr
      rw [h2]
      simp only [lenSumList]
      omega

theorem wfListB_mono {l : List TNode} :
    ∀ {p : Nat}, wfListB p l = true → ∀ i j ri rj, i ≤ j →
    l.get? i = some ri → l.get? j = some rj →
    ri.data.bs.position ≤ rj.data.bs.position := by
  induction l with
  | nil => intro p _ i j ri rj _ hi _; simp at hi
  | cons c t ih =>
    intro p h i j ri rj hij hi hj
    have hc := wfListB_cons h
    cases i with
    | zero =>
      simp only [List.get?] at hi
      cases hi
      have hb := (wfListB_get h j rj hj).2.1
      have h1 := wfNodeB_pos hc.1
      omega
    | succ i' =>
      cases j with
      | zero => omega
      | succ j' =>
        simp only [List.get?] at hi hj
        exact ih hc.2 i' j' ri rj (by omega) hi hj

theorem sizeOkList_cons {c : TNode} {t : List TNode}
    (h : sizeOkList (c :: t) = true) :
    sizeOkNode c = true ∧ sizeOkList t = true := by
  simp only [sizeOkList, Bool.and_eq_true] at h
  exact h

theorem sizeOkNode_elim {n : TNode} (h : sizeOkNode n = true) :
    n.children.length < 2 ^ 63 ∧ sizeOkList n.children = true := by
  cases n with
  | node d cs =>
    simp only [sizeOkNode, Bool.and_eq_true, decide_eq_true_eq] at h
    exact h

theorem sizeOkList_get {l : List TNode} :
    ∀ {i : Nat} {r : TNode}, sizeOkList l = true → l.get? i = some r →
    sizeOkNode r = true := by
  induction l with
  | nil => intro i r _ hr; simp at hr
  | cons c t ih =>
    intro i r h hr
    cases i with
    | zero =>
      simp only [List.get?] at hr
      cases hr
      exact (sizeOkList_cons h).1
    | succ j =>
      simp only [List.get?] at hr
      exact ih (sizeOkList_cons h).2 hr

theorem ndCountList_get {l : List TNode} :
    ∀ {i : Nat} {r : TNode}, l.get? i = some r →
    ndCountList r.children < ndCountList l := by
  induction l with
  | nil => intro i r hr; simp at hr
  | cons c t ih =>
    intro i r hr
    cases i with
    | zero =>
      simp only [List.get?] at hr
      cases hr
      have hcnt : ndCountNode c = 1 + ndCountList c.children := by
        cases c with
        | node d cs => simp [ndCountNode, TNode.children]
      simp only [ndCountList]
      omega
    | succ j =>
      simp only [List.get?] at hr
      have h2 := ih hr
      have hp := ndCountNode_pos c
      simp only [ndCountList]
      omega

theorem u64_wrap_dec {mid : Nat} (h1 : 1 ≤ mid) (h2 : mid < U64) :
    (mid + (U64 - 1)) % U64 = mid - 1 := by
  have hU : 0 < U64 := by simp [U64]
  rw [show mid + (U64 - 1) = U64 + (mid - 1) by omega, Nat.add_mod_left]
  exact Nat.mod_eq_of_lt (by omega)

mutual

theorem wf_chain_node (p : Nat) (n : TNode) (rest : List TNode)
    (h : wfNodeB p n = true) :
    chainedB p (flatNode n ++ rest) = chainedB (p + lenSumNode n) rest := by
  cases n with
  | node d cs =>
    simp only [wfNodeB, Bool.and_eq_true, beq_iff_eq] at h
    show chainedB p (TNode.node d cs :: (flatList cs ++ rest)) = _
    simp only [chainedB, TNode.data, h.1, beq_self_eq_true, Bool.true_and]
    rw [wf_chain_list (p + d.bs.length) cs rest h.2]
    simp only [lenSumNode]
    rw [show p + (d.bs.length + lenSumList cs) =
      p + d.bs.length + lenSumList cs by omega]

theorem wf_chain_list (p : Nat) (l : List TNode) (rest : List TNode)
    (h : wfListB p l = true) :
    chainedB p (flatList l ++ rest) = chainedB (p + lenSumList l) rest := by
  match l with
  | [] => simp [flatList, lenSumList]
  | c :: t =>
    have hc := wfListB_cons h
    show chainedB p ((flatNode c ++ flatList t) ++ rest) = _
    rw [List.append_assoc]
    rw [wf_chain_node p c (flatList t ++ rest) hc.1]
    rw [wf_chain_list (p + lenSumNode c) t rest hc.2]
    simp only [lenSumList]
    rw [show p + lenSumNode c + lenSumList t =
      p + (lenSumNode c + lenSumList t) by omega]

end

theorem wf_chain {p : Nat} {l : List TNode} (h : wfListB p l = true) :
    chainedB p (flatList l) = true := by
  have h2 := wf_chain_list p l [] h
  simpa [chainedB] using h2

theorem mem_flatNode_self (n : TNode) : n ∈ flatNode n := by
  cases n with
  | node d cs => simp [flatNode]

theorem mem_flatNode_of_mem_children {x c : TNode}
    (h : x ∈ flatList c.children) : x ∈ flatNode c := by
  cases c with
  | node d cs =>
    simp only [TNode.children] at h
    simp only [flatNode]
    exact List.mem_cons_of_mem _ h

theorem mem_flatList_of_mem_flatNode {l : List TNode} :
    ∀ {c x : TNode}, c ∈ l → x ∈ flatNode c → x ∈ flatList l := by
  induction l with
  | nil => intro c x hc _; simp at hc
  | cons a t ih =>
    intro c x hc hx
    simp only [List.mem_cons] at hc
    show x ∈ flatNode a ++ flatList t
    rw [List.mem_append]
    cases hc with
    | inl he =>
      left
      rw [← he]
      exact hx
    | inr hm =>
      right
      exact ih hm hx

theorem mem_flatList_of_mem {l : List TNode} {c : TNode} (h : c ∈ l) :
    c ∈ flatList l :=
  mem_flatList_of_mem_flatNode h (mem_flatNode_self c)

/-- Loop postcondition for `bsLoop`: started on a window `[lower, upper]`
of a well-formed index with the target at or after the start of
`roots[lower]` and (if `upper` is not the last index) at or before the
start of `roots[upper + 1]`, the loop terminates within the fuel at an
index `m` whose node starts at or before the target, and either the
target does not exceed the code's upper bound for `m` (the next sibling's
start, or the node's own end when `m` is last), or `m` is the last index
and the target lies strictly beyond its stored span. -/
theorem bsLoop_post {roots : List TNode} {target : Nat}
    (hlen : roots.length < 2 ^ 63) :
    ∀ fuel lower upper mp, lower ≤ upper → upper < roots.length →
    (∀ rl, roots.get? lower = some rl → rl.data.bs.position ≤ target) →
    (∀ ru, roots.get? (upper + 1) = some ru → target ≤ ru.data.bs.position) →
    upper + 1 - lower < fuel →
    ∃ m r, bsLoop roots target fuel lower upper mp = some (m, r.data.bs) ∧
      roots.get? m = some r ∧ r.data.bs.position ≤ target ∧
      (((∀ rn, roots.get? (m + 1) = some rn → target ≤ rn.data.bs.position) ∧
        (m = roots.length - 1 →
          target ≤ r.data.bs.position + r.data.bs.length)) ∨
       (m = roots.length - 1 ∧
        r.data.bs.position + r.data.bs.length < target)) := by
  intro fuel
  induction fuel with
  | zero => intro lower upper mp _ _ _ _ hfu; omega
  | succ f ih =>
    intro lower upper mp hlu hun hA hB hfu
    have hU : (lower + upper) % U64 = lower + upper := by
      apply Nat.mod_eq_of_lt
      simp only [U64]
      omega
    obtain ⟨mid, hmd⟩ : ∃ m, (lower + upper) / 2 = m := ⟨_, rfl⟩
    have hml : lower ≤ mid := by omega
    have hmu : mid ≤ upper := by omega
    have hmidlt : mid < roots.length := by omega
    obtain ⟨r, hr⟩ : ∃ r, roots.get? mid = some r :=
      ⟨roots.get ⟨mid, hmidlt⟩, List.get?_eq_get hmidlt⟩
    have hstep : bsLoop roots target (f + 1) lower upper mp =
        (if target < r.data.bs.position then
           bsLoop roots target f lower ((mid + (U64 - 1)) % U64)
             (mid, r.data.bs)
         else if target >
             (if roots.length - 1 > mid then
               (match roots.get? (mid + 1) with
                | some r2 => r2.data.bs.position
                | none => 0)
              else r.data.bs.position + r.data.bs.length) then
           bsLoop roots target f (mid + 1) upper (mid, r.data.bs)
         else some (mid, r.data.bs)) := by
      simp only [bsLoop]
      rw [if_pos hlu, hU, hmd, hr]
    by_cases h1 : target < r.data.bs.position
    · rw [if_pos h1] at hstep
      have hmlo : lower < mid := by
        rcases Nat.lt_or_ge lower mid with h | h
        · exact h
        · have hq : mid = lower := by omega
          rw [hq] at hr
          have := hA r hr
          omega
      have hwrap : (mid + (U64 - 1)) % U64 = mid - 1 := by
        apply u64_wrap_dec (by omega)
        simp only [U64]
        omega
      rw [hwrap] at hstep
      have hB' : ∀ ru, roots.get? (mid - 1 + 1) = some ru →
          target ≤ ru.data.bs.position := by
        intro ru hru
        rw [show mid - 1 + 1 = mid by omega, hr] at hru
        cases hru
        omega
      obtain ⟨m, r', hval, hgm, hple, hpost⟩ :=
        ih lower (mid - 1) (mid, r.data.bs) (by omega) (by omega) hA hB'
          (by omega)
      exact ⟨m, r', by rw [hstep]; exact hval, hgm, hple, hpost⟩
    · rw [if_neg h1] at hstep
      by_cases htop : roots.length - 1 > mid
      · have hm1 : mid + 1 < roots.length := by omega
        obtain ⟨r2, hr2⟩ : ∃ r2, roots.get? (mid + 1) = some r2 :=
          ⟨roots.get ⟨mid + 1, hm1⟩, List.get?_eq_get hm1⟩
        rw [if_pos htop] at hstep
        simp only [hr2] at hstep
        by_cases h2 : r2.data.bs.position < target
        · rw [if_pos h2] at hstep
          have hmu2 : mid < upper := by
            rcases Nat.lt_or_ge mid upper with h | h
            · exact h
            · have hq : mid = upper := by omega
              rw [hq] at hr2
              have := hB r2 hr2
              omega
          have hA' : ∀ rl, roots.get? (mid + 1) = some rl →
              rl.data.bs.position ≤ target := by
            intro rl hrl
            rw [hr2] at hrl
            cases hrl
            omega
          obtain ⟨m, r', hval, hgm, hple, hpost⟩ :=
            ih (mid + 1) upper (mid, r.data.bs) (by omega) hun hA' hB
              (by omega)
          exact ⟨m, r', by rw [hstep]; exact hval, hgm, hple, hpost⟩
        · rw [if_neg h2] at hstep
          refine ⟨mid, r, hstep, hr, by omega, Or.inl ⟨?_, ?_⟩⟩
          · intro rn hrn
            rw [hr2] at hrn
            cases hrn
            omega
          · intro hlast
            omega
      · rw [if_neg htop] at hstep
        have hmeq : mid = roots.length - 1 := by omega
        by_cases h2 : r.data.bs.position + r.data.bs.length < target
        · rw [if_pos h2] at hstep
          have hueq : upper = roots.length - 1 := by omega
          obtain ⟨g, hg⟩ : ∃ g, f = g + 1 := ⟨f - 1, by omega⟩
          have hret : bsLoop roots target f (mid + 1) upper
              (mid, r.data.bs) = some (mid, r.data.bs) := by
            rw [hg]
            simp only [bsLoop]
            rw [if_neg (by omega)]
          rw [hret] at hstep
          exact ⟨mid, r, hstep, hr, by omega, Or.inr ⟨hmeq, h2⟩⟩
        · rw [if_neg h2] at hstep
          refine ⟨mid, r, hstep, hr, by omega, Or.inl ⟨?_, ?_⟩⟩
          · intro rn hrn
            rw [show mid + 1 = roots.length by omega] at hrn
            rw [List.get?_eq_none.mpr (le_refl _)] at hrn
            cases hrn
          · intro _
            omega

theorem chainedB_ge_get? {L : List TNode} :
    ∀ {p : Nat}, chainedB p L = true → ∀ i a, L.get? i = some a →
    p ≤ a.data.bs.position := by
  induction L with
  | nil => intro p _ i a ha; simp at ha
  | cons c t ih =>
    intro p h i a ha
    have hc := chainedB_cons h
    cases i with
    | zero =>
      simp only [List.get?] at ha
      cases ha
      omega
    | succ j =>
      simp only [List.get?] at ha
      have h2 := ih hc.2 j a ha
      omega

theorem chainedB_le_get? {L : List TNode} :
    ∀ {p : Nat}, chainedB p L = true → ∀ i j a b, i < j →
    L.get? i = some a → L.get? j = some b →
    a.data.bs.position + a.data.bs.length ≤ b.data.bs.position := by
  induction L with
  | nil => intro p _ i j a b _ ha _; simp at ha
  | cons c t ih =>
    intro p h i j a b hij ha hb
    have hc := chainedB_cons h
    cases i with
    | zero =>
      simp only [List.get?] at ha
      cases ha
      obtain ⟨j', hj'⟩ : ∃ j', j = j' + 1 := ⟨j - 1, by omega⟩
      subst hj'
      simp only [List.get?] at hb
      have h2 := chainedB_ge_get? hc.2 j' b hb
      omega
    | succ i' =>
      obtain ⟨j', hj'⟩ : ∃ j', j = j' + 1 := ⟨j - 1, by omega⟩
      subst hj'
      simp only [List.get?] at ha hb
      exact ih hc.2 i' j' a b (by omega) ha hb

/-- In a consecutively chained sequence, a node whose closed window
`[position, position + length]` contains the target equals any node whose
open window `(position, position + length)` contains it: the windows of
distinct entries meet at most at their endpoints. -/
theorem chained_unique {L : List TNode} {p target : Nat}
    (hch : chainedB p L = true) {i j : Nat} {x y : TNode}
    (hx : L.get? i = some x) (hy : L.get? j = some y)
    (hx1 : x.data.bs.position ≤ target)
    (hx2 : target ≤ x.data.bs.position + x.data.bs.length)
    (hy1 : y.data.bs.position < target)
    (hy2 : target < y.data.bs.position + y.data.bs.length) :
    x = y := by
  rcases Nat.lt_trichotomy i j with h | h | h
  · have h2 := chainedB_le_get? hch i j x y h hx hy
    exfalso
    omega
  · rw [h] at hx
    rw [hx] at hy
    cases hy
    rfl
  · have h2 := chainedB_le_get? hch j i y x h hy hx
    exfalso
    omega

mutual

theorem wf_flat_bound_node (p : Nat) (n : TNode) (x : TNode)
    (h : wfNodeB p n = true) (hx : x ∈ flatNode n) :
    x.data.bs.position + x.data.bs.length ≤ p + lenSumNode n := by
  cases n with
  | node d cs =>
    simp only [wfNodeB, Bool.and_eq_true, beq_iff_eq] at h
    simp only [flatNode] at hx
    rcases List.mem_cons.mp hx with he | hm
    · subst he
      simp only [TNode.data, lenSumNode]
      omega
    · have h2 := wf_flat_bound_list (p + d.bs.length) cs x h.2 hm
      simp only [lenSumNode]
      omega

theorem wf_flat_bound_list (p : Nat) (l : List TNode) (x : TNode)
    (h : wfListB p l = true) (hx : x ∈ flatList l) :
    x.data.bs.position + x.data.bs.length ≤ p + lenSumList l := by
  match l with
  | [] => simp [flatList] at hx
  | c :: t =>
    have hc := wfListB_cons h
    simp only [flatList] at hx
    rcases List.mem_append.mp hx with hm | hm
    · have h2 := wf_flat_bound_node p c x hc.1 hm
      simp only [lenSumList]
      omega
    · have h2 := wf_flat_bound_list (p + lenSumNode c) t x hc.2 hm
      simp only [lenSumList]
      omega

end

theorem wfListB_get0 {p : Nat} {l : List TNode} (h : wfListB p l = true)
    {r : TNode} (hr : l.get? 0 = some r) : r.data.bs.position = p := by
  cases l with
  | nil => simp at hr
  | cons c t =>
    simp only [List.get?] at hr
    cases hr
    exact wfNodeB_pos (wfListB_cons h).1

/-- If the forest is nonempty, carries a well-formed index based at `p`,
and the target lies in `[p, p + total extent]`, the search finds a node
whose closed stored window `[position, position + length]` contains the
target. -/
theorem bsGo_found :
    ∀ fuel (roots : List TNode) (p target : Nat),
    wfListB p roots = true → sizeOkList roots = true →
    roots.length < 2 ^ 63 → roots ≠ [] →
    p ≤ target → target ≤ p + lenSumList roots →
    ndCountList roots < fuel →
    ∃ r, (bsGo target fuel roots).val = some r ∧ r ∈ flatList roots ∧
      r.data.bs.position ≤ target ∧
      target ≤ r.data.bs.position + r.data.bs.length := by
  intro fuel
  induction fuel with
  | zero => intro roots p target _ _ _ _ _ _ hfu; omega
  | succ f ih =>
    intro roots p target hwf hsz hlen hne hp ht hfu
    have hlp : 0 < roots.length := List.length_pos.mpr hne
    have hn0 : ¬(roots.length = 0) := by omega
    have hA : ∀ rl, roots.get? 0 = some rl →
        rl.data.bs.position ≤ target := by
      intro rl hrl
      have h0 := wfListB_get0 hwf hrl
      omega
    have hB : ∀ ru, roots.get? (roots.length - 1 + 1) = some ru →
        target ≤ ru.data.bs.position := by
      intro ru hru
      rw [show roots.length - 1 + 1 = roots.length by omega] at hru
      rw [List.get?_eq_none.mpr (le_refl _)] at hru
      cases hru
    obtain ⟨m, r, hval, hgm, hple, hpost⟩ :=
      bsLoop_post hlen U64 0 (roots.length - 1) (0, ⟨0, 0⟩)
        (by omega) (by omega) hA hB (by simp only [U64]; omega)
    have hmlt : m < roots.length := by
      by_contra hcon
      rw [List.get?_eq_none.mpr (by omega)] at hgm
      cases hgm
    have hstep : bsGo target (f + 1) roots =
        (if r.data.bs.position ≤ target ∧
            r.data.bs.position + r.data.bs.length ≥ target then
          { idx := m, val := some r }
        else
          if r.children.length ≠ 0 then bsGo target f r.children
          else { idx := 0, val := none }) := by
      simp only [bsGo]
      rw [if_neg hn0]
      simp only [hval, hgm]
    have hlsn : lenSumNode r = r.data.bs.length + lenSumList r.children := by
      cases r with
      | node d cs => simp [lenSumNode, TNode.data, TNode.children]
    by_cases hc : r.data.bs.position ≤ target ∧
        r.data.bs.position + r.data.bs.length ≥ target
    · rw [if_pos hc] at hstep
      exact ⟨r, by rw [hstep], mem_flatList_of_mem (List.get?_mem hgm),
        hc.1, hc.2⟩
    · rw [if_neg hc] at hstep
      have hgt : r.data.bs.position + r.data.bs.length < target := by
        rcases Nat.lt_or_ge (r.data.bs.position + r.data.bs.length) target
          with h | h
        · exact h
        · exact absurd ⟨hple, h⟩ hc
      have htle : target ≤ r.data.bs.position + lenSumNode r := by
        rcases hpost with ⟨hnext, hlast⟩ | ⟨hm, _⟩
        · rcases Nat.lt_or_ge m (roots.length - 1) with hlt | hge
          · have hm1 : m + 1 < roots.length := by omega
            obtain ⟨rn, hrn⟩ : ∃ rn, roots.get? (m + 1) = some rn :=
              ⟨roots.get ⟨m + 1, hm1⟩, List.get?_eq_get hm1⟩
            have hsucc := wfListB_succ hwf m r rn hgm hrn
            have h3 := hnext rn hrn
            omega
          · have hm : m = roots.length - 1 := by omega
            have h3 := hlast hm
            omega
        · have h4 := wfListB_last hwf r (by rw [← hm]; exact hgm)
          omega
      have hchild : r.children.length ≠ 0 := by
        intro h0
        have he : r.children = [] := List.length_eq_zero.mp h0
        rw [he] at hlsn
        simp only [lenSumList] at hlsn
        omega
      rw [if_pos hchild] at hstep
      have hwfc : wfListB (r.data.bs.position + r.data.bs.length)
          r.children = true :=
        wfNodeB_children (wfListB_get hwf m r hgm).1
      have hsze := sizeOkNode_elim (sizeOkList_get hsz hgm)
      obtain ⟨r', hval', hmem', h1', h2'⟩ :=
        ih r.children (r.data.bs.position + r.data.bs.length) target
          hwfc hsze.2 hsze.1
          (by intro he; rw [he] at hchild; exact hchild rfl)
          (by omega) (by omega) (by have h5 := ndCountList_get hgm; omega)
      exact ⟨r', by rw [hstep]; exact hval',
        mem_flatList_of_mem_flatNode (List.get?_mem hgm)
          (mem_flatNode_of_mem_children hmem'), h1', h2'⟩

/-- If the target lies strictly beyond the total indexed extent, the
search comes back empty. -/
theorem bsGo_none :
    ∀ fuel (roots : List TNode) (p target : Nat),
    wfListB p roots = true → sizeOkList roots = true →
    roots.length < 2 ^ 63 →
    p ≤ target → p + lenSumList roots < target →
    ndCountList roots < fuel →
    (bsGo target fuel roots).val = none := by
  intro fuel
  induction fuel with
  | zero => intro roots p target _ _ _ _ _ _; rfl
  | succ f ih =>
    intro roots p target hwf hsz hlen hp ht hfu
    by_cases hn0 : roots.length = 0
    · show (bsGo target (f + 1) roots).val = none
      simp only [bsGo]
      rw [if_pos hn0]
    · have hlp : 0 < roots.length := by omega
      have hA : ∀ rl, roots.get? 0 = some rl →
          rl.data.bs.position ≤ target := by
        intro rl hrl
        have h0 := wfListB_get0 hwf hrl
        omega
      have hB : ∀ ru, roots.get? (roots.length - 1 + 1) = some ru →
          target ≤ ru.data.bs.position := by
        intro ru hru
        rw [show roots.length - 1 + 1 = roots.length by omega] at hru
        rw [List.get?_eq_none.mpr (le_refl _)] at hru
        cases hru
      obtain ⟨m, r, hval, hgm, hple, hpost⟩ :=
        bsLoop_post hlen U64 0 (roots.length - 1) (0, ⟨0, 0⟩)
          (by omega) (by omega) hA hB (by simp only [U64]; omega)
      have hbound := (wfListB_get hwf m r hgm).2.2
      have hlsn : lenSumNode r =
          r.data.bs.length + lenSumList r.children := by
        cases r with
        | node d cs => simp [lenSumNode, TNode.data, TNode.children]
      have hc : ¬(r.data.bs.position ≤ target ∧
          r.data.bs.position + r.data.bs.length ≥ target) := by
        intro hcc
        have h2 := hcc.2
        omega
      have hstep : bsGo target (f + 1) roots =
          (if r.children.length ≠ 0 then bsGo target f r.children
           else { idx := 0, val := none }) := by
        simp only [bsGo]
        rw [if_neg hn0]
        simp only [hval, hgm]
        rw [if_neg hc]
      rcases hpost with ⟨hnext, hlast⟩ | ⟨hm, _⟩
      · exfalso
        rcases Nat.lt_or_ge m (roots.length - 1) with hlt | hge
        · have hm1 : m + 1 < roots.length := by omega
          obtain ⟨rn, hrn⟩ : ∃ rn, roots.get? (m + 1) = some rn :=
            ⟨roots.get ⟨m + 1, hm1⟩, List.get?_eq_get hm1⟩
          have h3 := hnext rn hrn
          have h4 := (wfListB_get hwf (m + 1) rn hrn).2.2
          omega
        · have hmlt : m < roots.length := by
            by_contra hcon
            rw [List.get?_eq_none.mpr (by omega)] at hgm
            cases hgm
          have h3 := hlast (by omega)
          omega
      · have h4 := wfListB_last hwf r (by rw [← hm]; exact hgm)
        by_cases hch : r.children.length ≠ 0
        · rw [if_pos hch] at hstep
          have hwfc : wfListB (r.data.bs.position + r.data.bs.length)
              r.children = true :=
            wfNodeB_children (wfListB_get hwf m r hgm).1
          have hsze := sizeOkNode_elim (sizeOkList_get hsz hgm)
          have hrec := ih r.children
            (r.data.bs.position + r.data.bs.length) target hwfc hsze.2
            hsze.1 (by omega) (by omega)
            (by have h5 := ndCountList_get hgm; omega)
          rw [hstep]
          exact hrec
        · rw [if_neg hch] at hstep
          rw [hstep]

theorem binarySearch_found {roots : List TNode} {target : Nat}
    (hwf : wfListB 0 roots = true) (hsz : sizeOkList roots = true)
    (hlen : roots.length < 2 ^ 63) (hne : roots ≠ [])
    (ht : target ≤ lenSumList roots) :
    ∃ r, (binarySearch roots target).val = some r ∧ r ∈ flatList roots ∧
      r.data.bs.position ≤ target ∧
      target ≤ r.data.bs.position + r.data.bs.length :=
  bsGo_found (ndCountList roots + 1) roots 0 target hwf hsz hlen hne
    (Nat.zero_le _) (by omega) (by omega)

theorem binarySearch_none {roots : List TNode} {target : Nat}
    (hwf : wfListB 0 roots = true) (hsz : sizeOkList roots = true)
    (hlen : roots.length < 2 ^ 63) (ht : lenSumList roots < target) :
    (binarySearch roots target).val = none :=
  bsGo_none (ndCountList roots + 1) roots 0 target hwf hsz hlen
    (Nat.zero_le _) (by omega) (by omega)

/-- A node of a well-formed forest whose open window strictly contains
the target is the unique possible answer: whatever node the search
returns with the target in its closed window must be that node, by
disjointness of the chained pre-order windows. -/
theorem binarySearch_leaf {roots : List TNode} {target : Nat} {X : TNode}
    (hwf : wfListB 0 roots = true) (hsz : sizeOkList roots = true)
    (hlen : roots.length < 2 ^ 63) (hmem : X ∈ flatList roots)
    (h1 : X.data.bs.position < target)
    (h2 : target < X.data.bs.position + X.data.bs.length) :
    (binarySearch roots target).val = some X := by
  have hne : roots ≠ [] := by
    intro he
    rw [he] at hmem
    simp [flatList] at hmem
  have hXb := wf_flat_bound_list 0 roots X hwf hmem
  obtain ⟨r, hval, hrmem, hr1, hr2⟩ :=
    @binarySearch_found roots target hwf hsz hlen hne (by omega)
  have hch : chainedB 0 (flatList roots) = true := wf_chain hwf
  obtain ⟨i, hi⟩ := List.mem_iff_get?.mp hrmem
  obtain ⟨j, hj⟩ := List.mem_iff_get?.mp hmem
  have hxy := chained_unique hch hi hj hr1 hr2 h1 h2
  rw [hval, hxy]

/-- C4 (amended): over a forest carrying a well-formed position index
(with realistic sibling-vector sizes), `binarySearch` returns an absent
result iff the forest is empty or the target strictly exceeds the total
indexed extent; and for any target strictly inside the open window
`(position, position + length)` of any node, it returns exactly that
node.  (The original claim's half-open window `[position,
position + length)` is refuted by `c4_left_endpoint_misses_leaf`: at the
left endpoint the inclusive containment test can stop at the parent whose
span ends exactly there.) -/
theorem c4_binary_search (roots : List TNode) (target : Nat)
    (hwf : wfListB 0 roots = true) (hsz : sizeOkList roots = true)
    (hlen : roots.length < 2 ^ 63) :
    ((binarySearch roots target).val = none ↔
      roots = [] ∨ lenSumList roots < target) ∧
    (∀ X, X ∈ flatList roots → X.data.bs.position < target →
      target < X.data.bs.position + X.data.bs.length →
      (binarySearch roots target).val = some X) := by
  constructor
  · constructor
    · intro hnone
      by_contra hcon
      push_neg at hcon
      obtain ⟨hne, hle⟩ := hcon
      obtain ⟨r, hval, _⟩ :=
        @binarySearch_found roots target hwf hsz hlen hne (by omega)
      rw [hval] at hnone
      cases hnone
    · intro h
      cases h with
      | inl he =>
        subst he
        rfl
      | inr hgt => exact binarySearch_none hwf hsz hlen hgt
  · intro X hm h1 h2
    exact binarySearch_leaf hwf hsz hlen hm h1 h2

/-- Witness for `c4_binary_search`: its hypotheses hold at the concrete
two-node forest `c4Roots`, and the conclusion's iff applies at target 20
(beyond the total extent 15). -/
theorem c4_binary_search_witness :
    (wfListB 0 c4Roots = true ∧ sizeOkList c4Roots = true ∧
      c4Roots.length < 2 ^ 63) ∧
    ((binarySearch c4Roots 20).val = none ↔
      c4Roots = [] ∨ lenSumList c4Roots < 20) :=
  ⟨⟨rfl, rfl, by decide⟩,
    (c4_binary_search c4Roots 20 rfl rfl (by decide)).1⟩
